import Mathlib

/-!
# Verification of the custom-routing repository

Shallow embedding of the two source files of the repository:

* `main.py`  — road-network builder: `calculate_distance` (Haversine),
  `create_road_graph` (networkx graph from OSM elements) and
  `create_routing_table`.
* `test.py`  — `SafeRouteFinder`: `find_nearest_node`, `add_danger_zone`,
  `calculate_intersection_length`, `find_safe_route` (constrained Dijkstra)
  and the static `haversine_distance`.

Modelling conventions, stated once here:

* A coordinate is a pair of rationals (Python floats are a subset of ℚ).
  The code canonicalizes a coordinate to the string `"lat,lon"` and uses
  that string as the node key; `repr`-formatting of floats is injective and
  `string_to_coord` inverts it, so string-key equality coincides with
  equality of the rational pairs.  Node keys are therefore modelled by the
  pairs themselves.
* Real arithmetic replaces floating-point arithmetic: `math.sin`, `math.cos`,
  `math.atan2`, `math.sqrt` become `Real.sin`, `Real.cos`, an explicit
  `atan2` with the C sign conventions, and `Real.sqrt`.
* Python dictionaries are modelled either as association lists (when their
  build order matters) or as functions into `Option` (absent key = `none`);
  a read of an absent key is a `KeyError`, modelled as an error value.
* `heapq` on `(distance, node_key)` tuples pops a least tuple under the
  lexicographic order.  The model keeps the queue as a list sorted by
  `(distance, node)` where ties between distinct nodes are ordered by a
  fixed total order on coordinate pairs (the code orders them by the string
  form of the key; no settled claim depends on which total order is used,
  only on its being fixed and shared between compared searches).
* `shapely` is an external geometry library; its polygon type is modelled
  by an abstract interface recording exactly the two operations the code
  calls (`intersects` and `intersection`, the latter classified by
  `geom_type`).
-/

/-- A coordinate: `(latitude, longitude)` in degrees.  Models both the
Python tuple and its canonical `"lat,lon"` string key (the two are in
bijection, see the header comment). -/
abbrev Coord : Type := ℚ × ℚ

/-- Python dictionary lookup `d[k]` on an association list: first binding
wins (dict keys are unique, so at most one binding exists). -/
def alookup {κ β : Type} [DecidableEq κ] (k : κ) : List (κ × β) → Option β
  | [] => none
  | (k', v) :: rest => if k' = k then some v else alookup k rest

/-- Python dictionary write `d[k] = v`: replace the existing binding or
append a fresh one. -/
def aset {κ β : Type} [DecidableEq κ] (k : κ) (v : β) : List (κ × β) → List (κ × β)
  | [] => [(k, v)]
  | (k', v') :: rest => if k' = k then (k', v) :: rest else (k', v') :: aset k v rest

/-! ## GeoDistance: the Haversine formula (`main.py:calculate_distance`,
`test.py:haversine_distance`; both files contain the same formula). -/

noncomputable section

open Real

/-- `math.radians`: degrees to radians. -/
def radians (x : ℝ) : ℝ := x * (Real.pi / 180)

/-- `math.atan2 y x` with the C sign conventions (the reals have no `-0.0`,
so the negative-zero cases collapse into the `x = 0` ones). -/
def atan2 (y x : ℝ) : ℝ :=
  if 0 < x then Real.arctan (y / x)
  else if x < 0 then
    (if 0 ≤ y then Real.arctan (y / x) + Real.pi else Real.arctan (y / x) - Real.pi)
  else
    (if 0 < y then Real.pi / 2 else if y < 0 then -(Real.pi / 2) else 0)

/-- The intermediate quantity `a` of the Haversine formula
(`a = sin(dlat/2)**2 + cos(lat1) * cos(lat2) * sin(dlon/2)**2`). -/
def havA (p q : ℝ × ℝ) : ℝ :=
  Real.sin ((radians q.1 - radians p.1) / 2) ^ 2 +
    Real.cos (radians p.1) * Real.cos (radians q.1) *
      Real.sin ((radians q.2 - radians p.2) / 2) ^ 2

/-- The Haversine distance on raw real pairs, Earth radius `R = 6371` km:
`c = 2 * atan2(sqrt(a), sqrt(1-a)); return R * c`. -/
def haversineReal (p q : ℝ × ℝ) : ℝ :=
  6371 * (2 * atan2 (Real.sqrt (havA p q)) (Real.sqrt (1 - havA p q)))

/-- `main.py:calculate_distance(point1, point2)` on coordinate tuples. -/
def calculate_distance (p q : Coord) : ℝ :=
  haversineReal ((p.1 : ℝ), (p.2 : ℝ)) ((q.1 : ℝ), (q.2 : ℝ))

/-- `test.py:SafeRouteFinder.haversine_distance(coord1_str, coord2_str)`:
parses the two `"lat,lon"` keys and applies the same formula, so on the
pair model it coincides with `calculate_distance`. -/
def haversine_distance (p q : Coord) : ℝ :=
  haversineReal ((p.1 : ℝ), (p.2 : ℝ)) ((q.1 : ℝ), (q.2 : ℝ))

end

/-! ## Data model of the routing table (`main.py` §6 JSON layout,
`test.py:SafeRouteFinder.routing_table`).

The entry field types are generic in the numeric type `α` of distances:
the table built by `main.py` carries real (Haversine) distances, while a
table loaded from JSON carries float (hence rational) values.  All search
claims are proved for any linearly ordered field. -/

/-- One adjacency record of the routing table (the JSON edge object). -/
structure RouteEntry (α : Type) where
  destination : Coord
  next_hop : Coord
  distance : α
  road_type : String
  road_name : String
  oneway : Bool
deriving DecidableEq

/-- The routing table: node key to list of its edges (a JSON object,
i.e. an association list with unique keys). -/
abbrev RoutingTable (α : Type) : Type := List (Coord × List (RouteEntry α))

/-- `routing_table.keys()` in iteration order. -/
def tkeys {α : Type} (t : RoutingTable α) : List Coord := t.map Prod.fst

/-- Every destination recorded in the table is itself a key of the table
(the closure invariant of claim C9). -/
def DestClosed {α : Type} (t : RoutingTable α) : Prop :=
  ∀ c es, alookup c t = some es → ∀ ent ∈ es, ent.destination ∈ tkeys t

/-! ## Nearest-node snapping (`test.py:find_nearest_node`). -/

/-- Python's `min(l, key=f)`: the first element of `l` attaining the
minimal key (raises on an empty list, modelled by `none`). -/
noncomputable def pyMinBy (f : Coord → ℝ) : List Coord → Option Coord
  | [] => none
  | x :: xs => some (xs.foldl (fun b y => if f y < f b then y else b) x)

/-- `find_nearest_node(coords)`: linear scan of the table keys minimizing
the Haversine distance to the target. -/
noncomputable def find_nearest_node {α : Type} (t : RoutingTable α) (c : Coord) : Option Coord :=
  pyMinBy (fun node => haversine_distance node c) (tkeys t)

/-! ## The danger-zone geometry (`shapely`), abstractly.

`shapely` is an external collaborator: the code only calls
`polygon.contains(point)`, `polygon.intersects(line)` and
`polygon.intersection(line)` and then branches on the `geom_type` of the
result.  A polygon is modelled by exactly that interface.  Geometry points
are `(x, y) = (lon, lat)` pairs, as in the code. -/

/-- Classification of a shapely geometry as the code observes it: a
`LineString` carries its coordinate sequence (`(lon, lat)` pairs, at least
two of them for a genuine shapely `LineString`); every other `geom_type`
(`MultiLineString`, `Point`, `GeometryCollection`, ...) is only matched
against the string `'LineString'` and so needs no further structure. -/
inductive IGeom where
  | lineString (coords : List (ℝ × ℝ))
  | multiLineString
  | pointGeom
  | collection

/-- Abstract shapely `Polygon`: the three operations the code calls. -/
structure DangerPoly where
  containsPt : (ℝ × ℝ) → Bool
  intersectsSeg : (ℝ × ℝ) → (ℝ × ℝ) → Bool
  intersectionSeg : (ℝ × ℝ) → (ℝ × ℝ) → IGeom

/-- `test.py:calculate_intersection_length(start_point, end_point,
danger_zone)`: build the straight chord as a `LineString` in `(lon, lat)`
order; if the polygon intersects it and the intersection's `geom_type` is
`'LineString'`, return the Haversine distance between the first and last
intersection coordinates (swapped back to `(lat, lon)`) times 1000
(kilometers to meters); in every other case return `0`.  A shapely
`LineString` has at least two coordinates, so the `(0, 0)` defaults for a
coordinate-less `LineString` are never read on shapely-produced input. -/
noncomputable def calculate_intersection_length (z : DangerPoly) (sp ep : Coord) : ℝ :=
  let a : ℝ × ℝ := ((sp.2 : ℝ), (sp.1 : ℝ))
  let b : ℝ × ℝ := ((ep.2 : ℝ), (ep.1 : ℝ))
  if z.intersectsSeg a b then
    match z.intersectionSeg a b with
    | .lineString cs =>
        let c0 := cs.headD (0, 0)
        let c1 := cs.getLastD (0, 0)
        haversineReal (c0.2, c0.1) (c1.2, c1.1) * 1000
    | _ => 0
  else 0

/-! ## The constrained search (`test.py:find_safe_route`, lines 64-129).

The search state holds the four per-call dictionaries/sets of the code.
The dictionaries are modelled as functions into `Option` (`none` = key
absent, so reading it is a `KeyError`); the priority queue is a list kept
sorted by `(distance, node)` — see the header comment on `heapq`.

The `while pq` loop is expressed with an explicit fuel counter; the code
always terminates because each node is expanded at most once and every
push happens during an expansion, and `searchFuel` over-provisions that
bound.  Running out of fuel is a distinct error value that no claim
identifies with a behavior of the code. -/

/-- The error outcomes of a `find_safe_route` call: a `KeyError` escaping
from a dictionary read, the `ValueError("No safe route found")` of line
115, the `ValueError` that `min()` raises on an empty table, and fuel
exhaustion of the model's loop counter. -/
inductive SErr where
  | keyError
  | emptyTable
  | noSafeRoute
  | outOfFuel
deriving DecidableEq

/-- Ephemeral search state of one `find_safe_route` call. -/
structure SState (α : Type) where
  dist : Coord → Option (WithTop α)
  prev : Coord → Option (Option Coord)
  danger : Coord → Option α
  visited : List Coord
  pq : List (α × Coord)

/-- The fixed total order on node keys used to break ties between queue
entries of equal distance (the code compares the `"lat,lon"` strings). -/
def coordLt (a b : Coord) : Prop := a.1 < b.1 ∨ (a.1 = b.1 ∧ a.2 < b.2)

instance (a b : Coord) : Decidable (coordLt a b) := by
  unfold coordLt
  infer_instance

/-- Insert a `(distance, node)` entry into the sorted queue (`heappush`). -/
def pqInsert {α : Type} [LinearOrderedField α] (x : α × Coord) :
    List (α × Coord) → List (α × Coord)
  | [] => [x]
  | y :: ys =>
    if x.1 < y.1 ∨ (x.1 = y.1 ∧ coordLt x.2 y.2) then x :: y :: ys else y :: pqInsert x ys

/-- The state written by a successful relaxation (lines 109-112):
`distances[neighbor] = distance; danger_intersections[neighbor] =
new_intersection; previous[neighbor] = current; heappush(pq, (distance,
neighbor))`. -/
def relaxUpdate {α : Type} [LinearOrderedField α] (st : SState α) (cur nb : Coord)
    (d ni : α) : SState α :=
  { dist := fun c => if c = nb then some (d : WithTop α) else st.dist c
    prev := fun c => if c = nb then some (some cur) else st.prev c
    danger := fun c => if c = nb then some ni else st.danger c
    visited := st.visited
    pq := pqInsert (d, nb) st.pq }

/-- `intersection_length`: the sum over all registered zones of the
per-zone intersection length of the chord (lines 95-98).  The per-zone
length is a parameter `ilen`; the instantiation for the real code is
`calculate_intersection_length` (see `find_safe_route`). -/
def totalILen {α : Type} [LinearOrderedField α] {Z : Type} (zones : List Z)
    (ilen : Z → Coord → Coord → α) (a b : Coord) : α :=
  (zones.map fun z => ilen z a b).sum

/-- The body of the `for neighbor in self.routing_table[current]` loop
(lines 92-112): skip the edge entirely when the total intersection length
strictly exceeds the tolerance; otherwise relax, updating when the
candidate distance is strictly smaller, or equal with strictly smaller
cumulative danger.  Dictionary reads happen in the code's order
(`danger_intersections[current]`, then `distances[neighbor]`, then — only
when the distances are equal — `danger_intersections[neighbor]`). -/
def relaxEdge {α : Type} [LinearOrderedField α] {Z : Type} (zones : List Z)
    (ilen : Z → Coord → Coord → α) (tol : α) (cd : α) (cur : Coord) (st : SState α)
    (e : RouteEntry α) : Except SErr (SState α) :=
  let nb := e.destination
  let il := totalILen zones ilen cur nb
  if tol < il then .ok st
  else
    let d := cd + e.distance
    match st.danger cur with
    | none => .error .keyError
    | some dc =>
      let ni := dc + il
      match st.dist nb with
      | none => .error .keyError
      | some dn =>
        if (d : WithTop α) < dn then .ok (relaxUpdate st cur nb d ni)
        else if (d : WithTop α) = dn then
          match st.danger nb with
          | none => .error .keyError
          | some gn => if ni < gn then .ok (relaxUpdate st cur nb d ni) else .ok st
        else .ok st

/-- Relax all outgoing edges of the current node, left to right. -/
def relaxAll {α : Type} [LinearOrderedField α] {Z : Type} (zones : List Z)
    (ilen : Z → Coord → Coord → α) (tol : α) (cd : α) (cur : Coord) (st : SState α)
    (es : List (RouteEntry α)) : Except SErr (SState α) :=
  es.foldlM (fun s e => relaxEdge zones ilen tol cd cur s e) st

/-- The `while pq` loop (lines 81-112): pop the least entry, skip visited
nodes, stop on the end node, otherwise relax the popped node's edges
(`self.routing_table[current]` raising a `KeyError` when the popped node
is not a key). -/
def searchLoop {α : Type} [LinearOrderedField α] {Z : Type} (table : RoutingTable α)
    (zones : List Z) (ilen : Z → Coord → Coord → α) (tol : α) (endN : Coord) :
    ℕ → SState α → Except SErr (SState α)
  | 0, _ => .error .outOfFuel
  | fuel + 1, st =>
    match st.pq with
    | [] => .ok st
    | (cd, cur) :: rest =>
      if cur ∈ st.visited then
        searchLoop table zones ilen tol endN fuel { st with pq := rest }
      else
        let st1 : SState α :=
          { st with visited := cur :: st.visited, pq := rest }
        if cur = endN then .ok st1
        else
          match alookup cur table with
          | none => .error .keyError
          | some es =>
            (relaxAll zones ilen tol cd cur st1 es).bind
              (searchLoop table zones ilen tol endN fuel)

/-- The initial search state (lines 74-79): every table key at distance
`+inf`, then the start node set to `0` (inserted if it is not a key);
every key with predecessor `None` and cumulative danger `0`; empty
visited set; queue `[(0, start_node)]`. -/
def initState {α : Type} [LinearOrderedField α] (table : RoutingTable α) (s : Coord) :
    SState α :=
  { dist := fun c => if c = s then some ((0 : α) : WithTop α)
      else if c ∈ tkeys table then some ⊤ else none
    prev := fun c => if c ∈ tkeys table then some none else none
    danger := fun c => if c ∈ tkeys table then some (0 : α) else none
    visited := []
    pq := [(0, s)] }

/-- `1 +` the number of edges listed under a node key. -/
def nodeWeight {α : Type} (table : RoutingTable α) (c : Coord) : ℕ :=
  1 + ((alookup c table).map List.length).getD 0

/-- Fuel for the search loop: each node is expanded at most once and each
expansion pushes at most its edge count, so the loop iterates fewer than
`2 + Σ (1 + outdegree)` times. -/
def searchFuel {α : Type} (table : RoutingTable α) (s : Coord) : ℕ :=
  2 + (((s :: tkeys table).dedup).map (nodeWeight table)).sum

/-- Path reconstruction (lines 117-124): follow predecessor links from the
end node (`previous[current]` raising a `KeyError` on a missing key) and
reverse; the accumulator builds the reversed list directly.  A cyclic
predecessor chain would make the code loop forever; the model's fuel
counter reports `outOfFuel` instead. -/
def buildPath (prev : Coord → Option (Option Coord)) :
    ℕ → Coord → List Coord → Except SErr (List Coord)
  | 0, _, _ => .error .outOfFuel
  | fuel + 1, cur, acc =>
    match prev cur with
    | none => .error .keyError
    | some none => .ok (cur :: acc)
    | some (some p) => buildPath prev fuel p (cur :: acc)

/-- Fuel for path reconstruction: an acyclic predecessor chain visits each
table key at most once. -/
def pathFuel {α : Type} (table : RoutingTable α) : ℕ := 1 + (tkeys table).length

/-- `find_safe_route` after nearest-node snapping (lines 74-129): run the
constrained Dijkstra loop from `s`, fail with the distinct
`ValueError("No safe route found")` when the end node's distance is still
`+inf`, otherwise reconstruct the path and return it with
`distances[end_node]`. -/
def findSafeRouteFrom {α : Type} [LinearOrderedField α] {Z : Type} (table : RoutingTable α)
    (zones : List Z) (ilen : Z → Coord → Coord → α) (tol : α) (s e : Coord) :
    Except SErr (List Coord × WithTop α) :=
  match searchLoop table zones ilen tol e (searchFuel table s) (initState table s) with
  | .error err => .error err
  | .ok stF =>
    match stF.dist e with
    | none => .error .keyError
    | some de =>
      if de = ⊤ then .error .noSafeRoute
      else
        match buildPath stF.prev (pathFuel table) e [] with
        | .error err => .error err
        | .ok p => .ok (p, de)

/-! ## The `SafeRouteFinder` object (`test.py`, lines 7-37, 64-72). -/

/-- The persistent fields of a `SafeRouteFinder` instance. -/
structure SafeRouteFinder where
  routing_table : RoutingTable ℝ
  danger_nodes : Finset Coord
  danger_polygons : List DangerPoly
  tolerance_meters : ℝ

/-- `add_danger_zone(coordinates)` (lines 25-37): append the polygon built
by shapely from the `(lon, lat)`-swapped vertices (the built polygon is
passed in as its abstract interface `z`), and record every table key
strictly inside it into the `danger_nodes` set. -/
noncomputable def add_danger_zone (f : SafeRouteFinder) (z : DangerPoly) : SafeRouteFinder :=
  { f with
    danger_polygons := f.danger_polygons ++ [z]
    danger_nodes := f.danger_nodes ∪
      (((tkeys f.routing_table).filter
        (fun n => z.containsPt ((n.2 : ℝ), (n.1 : ℝ)))).toFinset) }

/-- `find_safe_route(start_coords, end_coords)` (lines 64-129): snap both
endpoints to the nearest table keys (Python's `min` raising on an empty
table), then search; the per-zone intersection length is
`calculate_intersection_length`. -/
noncomputable def find_safe_route (f : SafeRouteFinder) (sc ec : Coord) :
    Except SErr (List Coord × WithTop ℝ) :=
  match find_nearest_node f.routing_table sc, find_nearest_node f.routing_table ec with
  | some s, some e =>
    findSafeRouteFrom f.routing_table f.danger_polygons
      (fun z a b => calculate_intersection_length z a b) f.tolerance_meters s e
  | _, _ => .error .emptyTable

/-! ## Unconstrained Dijkstra.

Modelled from the spec (§4.4 and §8): a textbook Dijkstra shortest-path
search on the same routing table — min-priority queue keyed by tentative
distance, per-node tentative distance initialized to `+inf` except the
start node at `0`, relax when the candidate distance is strictly smaller,
stop when the end node is popped, fail with the "no route" condition when
the end node's distance remains `+inf`, reconstruct through predecessor
links.  It shares the queue discipline and the keyed-map reads of the
constrained search so that the two can be compared result-for-result. -/

/-- State of the unconstrained Dijkstra search: as `SState` but with no
danger-length map. -/
structure PState (α : Type) where
  dist : Coord → Option (WithTop α)
  prev : Coord → Option (Option Coord)
  visited : List Coord
  pq : List (α × Coord)

/-- Unconstrained relaxation: update exactly when the candidate distance
is strictly smaller. -/
def prelaxEdge {α : Type} [LinearOrderedField α] (cd : α) (cur : Coord) (st : PState α)
    (e : RouteEntry α) : Except SErr (PState α) :=
  let nb := e.destination
  let d := cd + e.distance
  match st.dist nb with
  | none => .error .keyError
  | some dn =>
    if (d : WithTop α) < dn then
      .ok { dist := fun c => if c = nb then some (d : WithTop α) else st.dist c
            prev := fun c => if c = nb then some (some cur) else st.prev c
            visited := st.visited
            pq := pqInsert (d, nb) st.pq }
    else .ok st

/-- Relax all outgoing edges of the current node, left to right. -/
def prelaxAll {α : Type} [LinearOrderedField α] (cd : α) (cur : Coord) (st : PState α)
    (es : List (RouteEntry α)) : Except SErr (PState α) :=
  es.foldlM (fun s e => prelaxEdge cd cur s e) st

/-- The unconstrained Dijkstra loop. -/
def dijkstraLoop {α : Type} [LinearOrderedField α] (table : RoutingTable α) (endN : Coord) :
    ℕ → PState α → Except SErr (PState α)
  | 0, _ => .error .outOfFuel
  | fuel + 1, st =>
    match st.pq with
    | [] => .ok st
    | (cd, cur) :: rest =>
      if cur ∈ st.visited then
        dijkstraLoop table endN fuel { st with pq := rest }
      else
        let st1 : PState α :=
          { st with visited := cur :: st.visited, pq := rest }
        if cur = endN then .ok st1
        else
          match alookup cur table with
          | none => .error .keyError
          | some es => (prelaxAll cd cur st1 es).bind (dijkstraLoop table endN fuel)

/-- Initial unconstrained state. -/
def pinitState {α : Type} [LinearOrderedField α] (table : RoutingTable α) (s : Coord) :
    PState α :=
  { dist := fun c => if c = s then some ((0 : α) : WithTop α)
      else if c ∈ tkeys table then some ⊤ else none
    prev := fun c => if c ∈ tkeys table then some none else none
    visited := []
    pq := [(0, s)] }

/-- Unconstrained Dijkstra between two table nodes, same result shape as
`findSafeRouteFrom`. -/
def dijkstraPlain {α : Type} [LinearOrderedField α] (table : RoutingTable α) (s e : Coord) :
    Except SErr (List Coord × WithTop α) :=
  match dijkstraLoop table e (searchFuel table s) (pinitState table s) with
  | .error err => .error err
  | .ok stF =>
    match stF.dist e with
    | none => .error .keyError
    | some de =>
      if de = ⊤ then .error .noSafeRoute
      else
        match buildPath stF.prev (pathFuel table) e [] with
        | .error err => .error err
        | .ok p => .ok (p, de)

/-! ## The road-network builder (`main.py`, lines 52-112). -/

/-- A raw OSM element as `create_road_graph` reads it: a node record
`{id, lat, lon}` or a way record `{node id sequence, tags}`. -/
inductive OSMElement where
  | node (id : ℕ) (lat lon : ℚ)
  | way (nodeIds : List ℕ) (tags : List (String × String))

/-- First pass of `create_road_graph` (lines 58-61): index the node
records by id (a later record with the same id overwrites an earlier
one). -/
def nodesDict (data : List OSMElement) : List (ℕ × Coord) :=
  data.foldl
    (fun m e =>
      match e with
      | .node i la lo => aset i (la, lo) m
      | .way _ _ => m) []

/-- The attribute record stored on a networkx edge (line 79-86). -/
structure EdgeAttrs where
  distance : ℝ
  road_type : String
  name : String
  oneway : Bool

/-- A `networkx.Graph`: an undirected graph as a node list (insertion
order, no duplicates) and an edge list keyed by unordered endpoint pairs
(at most one entry per pair; `add_edge` on an existing pair overwrites its
attributes). -/
structure NXGraph where
  nodes : List Coord
  adj : List ((Coord × Coord) × EdgeAttrs)

/-- Does the stored (unordered) edge key `k` join `p` and `q`? -/
def keyMatches (k : Coord × Coord) (p q : Coord) : Bool :=
  (decide (k.1 = p) && decide (k.2 = q)) || (decide (k.1 = q) && decide (k.2 = p))

/-- Register a node if it is new. -/
def addNode (G : NXGraph) (p : Coord) : NXGraph :=
  if p ∈ G.nodes then G else { G with nodes := G.nodes ++ [p] }

/-- Overwrite the attributes of the edge `{p, q}` or append it. -/
def setAdj (p q : Coord) (a : EdgeAttrs) :
    List ((Coord × Coord) × EdgeAttrs) → List ((Coord × Coord) × EdgeAttrs)
  | [] => [((p, q), a)]
  | (k, b) :: rest =>
    if keyMatches k p q then (k, a) :: rest else (k, b) :: setAdj p q a rest

/-- `G.add_edge(p, q, **attrs)`: register both endpoints, then store the
attributes under the unordered pair. -/
def add_edge (G : NXGraph) (p q : Coord) (a : EdgeAttrs) : NXGraph :=
  let G1 := addNode (addNode G p) q
  { G1 with adj := setAdj p q a G1.adj }

/-- `G.neighbors(p)`: the other endpoint of every stored edge at `p` (a
self-loop contributes `p` itself once). -/
def nxNeighbors (G : NXGraph) (p : Coord) : List Coord :=
  G.adj.filterMap
    (fun kb => if kb.1.1 = p then some kb.1.2 else if kb.1.2 = p then some kb.1.1 else none)

/-- `G.get_edge_data(p, q)`: the attributes stored under the unordered
pair `{p, q}`, if any. -/
def get_edge_data (G : NXGraph) (p q : Coord) : Option EdgeAttrs :=
  (G.adj.find? (fun kb => keyMatches kb.1 p q)).map Prod.snd

/-- The consecutive pairs `(l[i], l[i+1])` walked by
`for i in range(len(element['nodes']) - 1)`. -/
def consecPairs {β : Type} : List β → List (β × β)
  | [] => []
  | [_] => []
  | a :: b :: rest => (a, b) :: consecPairs (b :: rest)

/-- The body of the pair loop (lines 69-86): if both node ids resolve in
the index, add a (bidirectional, attribute-shared) edge between the two
resolved coordinates with the Haversine distance; otherwise skip the
segment. -/
noncomputable def processWay (nodes : List (ℕ × Coord)) (rtype nm : String) (ow : Bool)
    (G : NXGraph) (pr : ℕ × ℕ) : NXGraph :=
  match alookup pr.1 nodes, alookup pr.2 nodes with
  | some p1, some p2 => add_edge G p1 p2 ⟨calculate_distance p1 p2, rtype, nm, ow⟩
  | _, _ => G

/-- The body of the element loop of `create_road_graph` (lines 63-86):
node records and ways without a `highway` tag contribute nothing; a way
with a `highway` tag walks its consecutive node-id pairs; `name` defaults
to `"unnamed"`, `oneway` is the test `tags.get('oneway', 'no') == 'yes'`. -/
noncomputable def graphStep (nodes : List (ℕ × Coord)) (G : NXGraph) (e : OSMElement) :
    NXGraph :=
  match e with
  | .node _ _ _ => G
  | .way nids tags =>
    match alookup "highway" tags with
    | none => G
    | some rtype =>
      (consecPairs nids).foldl
        (processWay nodes rtype ((alookup "name" tags).getD "unnamed")
          (((alookup "oneway" tags).getD "no") == "yes")) G

/-- `create_road_graph(data)` (lines 52-88): index the node records, then
process every element with `graphStep`. -/
noncomputable def create_road_graph (data : List OSMElement) : NXGraph :=
  data.foldl (graphStep (nodesDict data)) ⟨[], []⟩

/-- The JSON edge object built for one neighbor (lines 101-108):
`next_hop` always equals `destination`. -/
def edgeEntry (nb : Coord) (a : EdgeAttrs) : RouteEntry ℝ :=
  { destination := nb
    next_hop := nb
    distance := a.distance
    road_type := a.road_type
    road_name := a.name
    oneway := a.oneway }

/-- The edge-object list built for one node (lines 98-110). -/
def entriesFor (G : NXGraph) (n : Coord) : List (RouteEntry ℝ) :=
  (nxNeighbors G n).filterMap (fun nb => (get_edge_data G n nb).map (edgeEntry nb))

/-- `create_routing_table(G)` (lines 90-112): one table key per graph node
with at least one neighbor (the `defaultdict` only materializes keys that
receive an append; in a graph built purely by `add_edge` every node has a
neighbor, but the model keeps the filter faithful). -/
def create_routing_table (G : NXGraph) : RoutingTable ℝ :=
  (G.nodes.map (fun n => (n, entriesFor G n))).filter (fun x => !x.2.isEmpty)

/-! ## Invariants and correspondence predicates used by the proofs. -/

/-- Correspondence between a constrained search state with no registered
zones and an unconstrained Dijkstra state over the same table: the shared
components agree, the danger map is identically `0` on exactly the table
keys, every queued node is a table key, and the distance map is populated
on table keys only. -/
def SPRel {α : Type} [LinearOrderedField α] (keys : List Coord) (stS : SState α)
    (stP : PState α) : Prop :=
  stS.dist = stP.dist ∧ stS.prev = stP.prev ∧ stS.visited = stP.visited ∧
    stS.pq = stP.pq ∧
    stS.danger = (fun c => if c ∈ keys then some (0 : α) else none) ∧
    (∀ x ∈ stS.pq, x.2 ∈ keys) ∧
    (∀ c, stS.dist c ≠ none → c ∈ keys)

/-- The state invariant under which the search dictionaries are never read
at a missing key: queued nodes are table keys, the three per-node maps are
populated on every table key, recorded predecessors are table keys, and
the distance map is populated on table keys only. -/
def GoodState {α : Type} (keys : List Coord) (st : SState α) : Prop :=
  (∀ x ∈ st.pq, x.2 ∈ keys) ∧
    (∀ c ∈ keys, st.dist c ≠ none) ∧
    (∀ c ∈ keys, st.danger c ≠ none) ∧
    (∀ c ∈ keys, st.prev c ≠ none) ∧
    (∀ c v, st.prev c = some (some v) → v ∈ keys) ∧
    (∀ c, st.dist c ≠ none → c ∈ keys)

/-- Well-formedness of the modelled networkx graph: the node list has no
duplicates and every stored edge joins registered nodes. -/
def NXWF (G : NXGraph) : Prop :=
  G.nodes.Nodup ∧ ∀ kb ∈ G.adj, kb.1.1 ∈ G.nodes ∧ kb.1.2 ∈ G.nodes

/-! # Theorems -/

/-! Basic facts about `atan2` and the Haversine distance. -/

theorem atan2_zero_one : atan2 0 1 = 0 := by
  unfold atan2
  norm_num

theorem atan2_pos_of_pos (y x : ℝ) (hy : 0 < y) : 0 < atan2 y x := by
  unfold atan2
  rcases lt_trichotomy x 0 with hx | hx | hx
  · rw [if_neg (by linarith), if_pos hx, if_pos hy.le]
    have h1 : -(Real.pi / 2) < Real.arctan (y / x) := Real.neg_pi_div_two_lt_arctan _
    have h2 : 0 < Real.pi := Real.pi_pos
    linarith
  · subst hx
    rw [if_neg (lt_irrefl 0), if_neg (lt_irrefl 0), if_pos hy]
    have h2 : 0 < Real.pi := Real.pi_pos
    linarith
  · rw [if_pos hx]
    have h := Real.arctan_strictMono (div_pos hy hx)
    rwa [Real.arctan_zero] at h

theorem havA_self (p : ℝ × ℝ) : havA p p = 0 := by
  unfold havA
  simp

theorem haversineReal_self (p : ℝ × ℝ) : haversineReal p p = 0 := by
  unfold haversineReal
  rw [havA_self]
  simp [atan2_zero_one]

theorem havA_comm (p q : ℝ × ℝ) : havA p q = havA q p := by
  unfold havA
  have h : ∀ u v : ℝ, Real.sin ((u - v) / 2) ^ 2 = Real.sin ((v - u) / 2) ^ 2 := by
    intro u v
    rw [show (u - v) / 2 = -((v - u) / 2) by ring, Real.sin_neg]
    ring
  rw [h (radians q.1) (radians p.1), h (radians q.2) (radians p.2),
    mul_comm (Real.cos (radians p.1)) (Real.cos (radians q.1))]

theorem haversineReal_comm (p q : ℝ × ℝ) : haversineReal p q = haversineReal q p := by
  unfold haversineReal
  rw [havA_comm]

theorem haversineReal_pos (p q : ℝ × ℝ) (h : 0 < havA p q) : 0 < haversineReal p q := by
  unfold haversineReal
  have h1 : 0 < Real.sqrt (havA p q) := Real.sqrt_pos.2 h
  have h2 : 0 < atan2 (Real.sqrt (havA p q)) (Real.sqrt (1 - havA p q)) :=
    atan2_pos_of_pos _ _ h1
  positivity

/-- C6, counterexample to the "only if" direction: the two distinct
coordinates `(90, 0)` and `(90, 90)` (both on the north pole) are at
Haversine distance exactly `0` in real arithmetic, because
`cos(radians 90) = 0` annihilates the longitude term while `dlat = 0`
annihilates the latitude term. -/
theorem calculate_distance_pole_zero :
    calculate_distance (90, 0) (90, 90) = 0 ∧ ((90, 0) : Coord) ≠ (90, 90) := by
  constructor
  · unfold calculate_distance haversineReal
    have hA : havA (((90 : ℚ) : ℝ), ((0 : ℚ) : ℝ)) (((90 : ℚ) : ℝ), ((90 : ℚ) : ℝ)) = 0 := by
      unfold havA radians
      push_cast
      have h : (90 : ℝ) * (Real.pi / 180) = Real.pi / 2 := by ring
      rw [h]
      simp [Real.cos_pi_div_two]
    rw [hA]
    simp [atan2_zero_one]
  · intro h
    have h2 := congrArg Prod.snd h
    norm_num at h2

/-- C6 (amended): the Haversine distance of the code is exactly symmetric
in real arithmetic, and `distance(a, a) = 0` for every coordinate `a`; the
converse ("zero only if the coordinates are equal") is dropped, since it
fails for distinct coordinates sharing a pole latitude
(`calculate_distance_pole_zero`). -/
theorem calculate_distance_symm_and_self_zero (a b : Coord) :
    calculate_distance a b = calculate_distance b a ∧ calculate_distance a a = 0 :=
  ⟨haversineReal_comm _ _, haversineReal_self _⟩

/-! ## C5: `calculate_intersection_length`. -/

/-- C5: for every start/end coordinate pair and registered polygon,
`calculate_intersection_length` returns the geodesic (Haversine) length in
meters of the intersecting portion when the chord-polygon intersection is
a single simple line segment (a `LineString` with endpoints `p`, `q`,
given in `(lon, lat)` order), and returns exactly `0` whenever the
intersection geometry is not a `LineString` (multi-segment, point,
collection) or the chord does not intersect the polygon at all. -/
theorem calculate_intersection_length_cases (z : DangerPoly) (sp ep : Coord) (p q : ℝ × ℝ) :
    (z.intersectsSeg ((sp.2 : ℝ), (sp.1 : ℝ)) ((ep.2 : ℝ), (ep.1 : ℝ)) = true →
      z.intersectionSeg ((sp.2 : ℝ), (sp.1 : ℝ)) ((ep.2 : ℝ), (ep.1 : ℝ)) =
        IGeom.lineString [p, q] →
      calculate_intersection_length z sp ep = haversineReal (p.2, p.1) (q.2, q.1) * 1000) ∧
    ((∀ cs, z.intersectionSeg ((sp.2 : ℝ), (sp.1 : ℝ)) ((ep.2 : ℝ), (ep.1 : ℝ)) ≠
        IGeom.lineString cs) →
      calculate_intersection_length z sp ep = 0) ∧
    (z.intersectsSeg ((sp.2 : ℝ), (sp.1 : ℝ)) ((ep.2 : ℝ), (ep.1 : ℝ)) = false →
      calculate_intersection_length z sp ep = 0) := by
  refine ⟨?_, ?_, ?_⟩
  · intro hi hg
    simp only [calculate_intersection_length]
    rw [hi, hg]
    simp
  · intro hg
    by_cases hi : z.intersectsSeg ((sp.2 : ℝ), (sp.1 : ℝ)) ((ep.2 : ℝ), (ep.1 : ℝ)) = true
    · cases hgeom : z.intersectionSeg ((sp.2 : ℝ), (sp.1 : ℝ)) ((ep.2 : ℝ), (ep.1 : ℝ)) with
      | lineString cs => exact absurd hgeom (hg cs)
      | multiLineString => simp [calculate_intersection_length, hi, hgeom]
      | pointGeom => simp [calculate_intersection_length, hi, hgeom]
      | collection => simp [calculate_intersection_length, hi, hgeom]
    · rw [Bool.not_eq_true] at hi
      simp [calculate_intersection_length, hi]
  · intro hi
    simp [calculate_intersection_length, hi]

/-- Witness for C5 at a concrete polygon whose intersection with the
chord is the single segment from `(0, 0)` to `(1, 0)` in `(lon, lat)`
order. -/
theorem calculate_intersection_length_cases_witness :
    calculate_intersection_length
        ⟨fun _ => false, fun _ _ => true, fun _ _ => IGeom.lineString [(0, 0), (1, 0)]⟩
        (0, 0) (0, 1) =
      haversineReal ((0 : ℝ), (0 : ℝ)) ((0 : ℝ), (1 : ℝ)) * 1000 :=
  (calculate_intersection_length_cases
    ⟨fun _ => false, fun _ _ => true, fun _ _ => IGeom.lineString [(0, 0), (1, 0)]⟩
    (0, 0) (0, 1) (0, 0) (1, 0)).1 rfl rfl

/-! ## C7: the contained-nodes set is dead data for routing. -/

/-- C7: `find_safe_route` never consults the `danger_nodes` set recorded
by `add_danger_zone`: two finders agreeing on the routing table, the
registered polygons and the tolerance — but with arbitrary, possibly
different, contained-nodes sets — return identical results on every
query. -/
theorem find_safe_route_ignores_danger_nodes (f g : SafeRouteFinder)
    (ht : f.routing_table = g.routing_table)
    (hp : f.danger_polygons = g.danger_polygons)
    (hm : f.tolerance_meters = g.tolerance_meters)
    (sc ec : Coord) :
    find_safe_route f sc ec = find_safe_route g sc ec := by
  unfold find_safe_route
  rw [ht, hp, hm]

/-- Witness for C7: an empty finder versus one whose contained-nodes set
already holds a node. -/
theorem find_safe_route_ignores_danger_nodes_witness :
    find_safe_route ⟨[], ∅, [], 0⟩ (0, 0) (0, 0) =
      find_safe_route ⟨[], {((1 : ℚ), (1 : ℚ))}, [], 0⟩ (0, 0) (0, 0) :=
  find_safe_route_ignores_danger_nodes ⟨[], ∅, [], 0⟩ ⟨[], {((1 : ℚ), (1 : ℚ))}, [], 0⟩
    rfl rfl rfl (0, 0) (0, 0)

/-! ## C8: snapping an exact node coordinate. -/

/-- Python's `min`-fold returns the unique strict minimizer `t`. -/
theorem foldlMin_eq_of_unique (f : Coord → ℝ) (t : Coord) :
    ∀ (xs : List Coord) (b : Coord),
      ((b = t ∧ ∀ k ∈ xs, k ≠ t → f t < f k) ∨
        (t ∈ xs ∧ f t < f b ∧ ∀ k ∈ xs, k ≠ t → f t < f k)) →
      xs.foldl (fun b y => if f y < f b then y else b) b = t := by
  intro xs
  induction xs with
  | nil =>
    intro b h
    rcases h with ⟨hb, _⟩ | ⟨ht, _, _⟩
    · exact hb
    · exact absurd ht (List.not_mem_nil t)
  | cons x rest ih =>
    intro b h
    simp only [List.foldl_cons]
    rcases h with ⟨hb, hall⟩ | ⟨hmem, hfb, hall⟩
    · rw [hb]
      by_cases hx : x = t
      · rw [hx, if_neg (lt_irrefl (f t))]
        exact ih t (Or.inl ⟨rfl, fun k hk => hall k (List.mem_cons_of_mem x hk)⟩)
      · rw [if_neg (not_lt.2 (hall x (List.mem_cons_self x rest) hx).le)]
        exact ih t (Or.inl ⟨rfl, fun k hk => hall k (List.mem_cons_of_mem x hk)⟩)
    · by_cases hx : x = t
      · rw [hx, if_pos hfb]
        exact ih t (Or.inl ⟨rfl, fun k hk => hall k (List.mem_cons_of_mem x hk)⟩)
      · have hmem' : t ∈ rest := by
          rcases List.mem_cons.1 hmem with h1 | h1
          · exact absurd h1.symm hx
          · exact h1
        have hfx : f t < f x := hall x (List.mem_cons_self x rest) hx
        by_cases hcmp : f x < f b
        · rw [if_pos hcmp]
          exact ih x (Or.inr ⟨hmem', hfx, fun k hk => hall k (List.mem_cons_of_mem x hk)⟩)
        · rw [if_neg hcmp]
          exact ih b (Or.inr ⟨hmem', hfb, fun k hk => hall k (List.mem_cons_of_mem x hk)⟩)

/-- `min(l, key=f)` returns the unique strict minimizer. -/
theorem pyMinBy_eq_of_unique (f : Coord → ℝ) (t : Coord) (l : List Coord)
    (hmem : t ∈ l) (hall : ∀ k ∈ l, k ≠ t → f t < f k) :
    pyMinBy f l = some t := by
  cases l with
  | nil => exact absurd hmem (List.not_mem_nil t)
  | cons x rest =>
    show some (rest.foldl (fun b y => if f y < f b then y else b) x) = some t
    apply congrArg some
    by_cases hx : x = t
    · exact foldlMin_eq_of_unique f t rest x
        (Or.inl ⟨hx, fun k hk => hall k (List.mem_cons_of_mem x hk)⟩)
    · have hmem' : t ∈ rest := by
        rcases List.mem_cons.1 hmem with h1 | h1
        · exact absurd h1.symm hx
        · exact h1
      exact foldlMin_eq_of_unique f t rest x
        (Or.inr ⟨hmem', hall x (List.mem_cons_self x rest) hx,
          fun k hk => hall k (List.mem_cons_of_mem x hk)⟩)

/-- C8: for every routing table and every node key present in it, if no
other key of the table sits at (idealized, real-valued) Haversine distance
`0` from that key — which rules out only the degenerate coincidences of
`calculate_distance_pole_zero`, where distinct keys share a pole — then
`find_nearest_node` applied to the exact coordinate of the node returns
that same node key, and the snap distance is `0`. -/
theorem find_nearest_node_exact {α : Type} (t : RoutingTable α) (c : Coord)
    (hc : c ∈ tkeys t)
    (huniq : ∀ k ∈ tkeys t, k ≠ c → 0 < haversine_distance k c) :
    find_nearest_node t c = some c ∧ haversine_distance c c = 0 := by
  have hself : haversine_distance c c = 0 := haversineReal_self _
  refine ⟨?_, hself⟩
  unfold find_nearest_node
  apply pyMinBy_eq_of_unique (fun node => haversine_distance node c) c (tkeys t) hc
  intro k hk hne
  show haversine_distance c c < haversine_distance k c
  rw [hself]
  exact huniq k hk hne

/-- The two concrete coordinates of the C8 witness are at strictly
positive Haversine distance. -/
theorem haversine_origin_one_pos : 0 < haversine_distance (0, 0) (1, 0) := by
  apply haversineReal_pos
  have hpi := Real.pi_pos
  have hA : havA (((0 : ℚ) : ℝ), ((0 : ℚ) : ℝ)) (((1 : ℚ) : ℝ), ((0 : ℚ) : ℝ)) =
      Real.sin (Real.pi / 360) ^ 2 := by
    unfold havA radians
    push_cast
    rw [show (1 : ℝ) * (Real.pi / 180) = Real.pi / 180 by ring,
      show (0 : ℝ) * (Real.pi / 180) = 0 by ring]
    rw [show ((Real.pi / 180 - 0) / 2 : ℝ) = Real.pi / 360 by ring,
      show ((0 - 0) / 2 : ℝ) = 0 by ring]
    simp
  rw [hA]
  have hs : 0 < Real.sin (Real.pi / 360) := by
    apply Real.sin_pos_of_pos_of_lt_pi
    · positivity
    · linarith
  positivity

/-- Witness for C8: a two-node table, snapping the exact coordinate of
the node `(1, 0)`. -/
theorem find_nearest_node_exact_witness :
    find_nearest_node ([((0, 0), []), ((1, 0), [])] : RoutingTable ℚ) (1, 0) =
        some (1, 0) ∧
      haversine_distance (1, 0) (1, 0) = 0 := by
  apply find_nearest_node_exact
  · decide
  · intro k hk hne
    have hk' : k = ((0 : ℚ), (0 : ℚ)) ∨ k = ((1 : ℚ), (0 : ℚ)) := by
      simpa [tkeys] using hk
    rcases hk' with h1 | h1
    · rw [h1]
      exact haversine_origin_one_pos
    · exact absurd h1 hne

/-! ## C10: the degenerate same-node query. -/

/-- C10: for every routing table, any registered danger zones, any
per-zone intersection length function and any tolerance, when the snapped
start and end nodes coincide (at a table key `s`), `find_safe_route`
succeeds immediately with the single-node path `[s]` and total distance
`0`: the start node is popped, marked visited, and recognized as the end
node before any edge is examined, so the admissibility rule never runs. -/
theorem findSafeRouteFrom_same_node {α : Type} [LinearOrderedField α] {Z : Type}
    (table : RoutingTable α) (zones : List Z) (ilen : Z → Coord → Coord → α) (tol : α)
    (s : Coord) (hs : s ∈ tkeys table) :
    findSafeRouteFrom table zones ilen tol s s = .ok ([s], (0 : WithTop α)) := by
  obtain ⟨n, hn⟩ : ∃ n, searchFuel table s = n + 1 :=
    ⟨1 + (((s :: tkeys table).dedup).map (nodeWeight table)).sum, by unfold searchFuel; omega⟩
  obtain ⟨m, hm⟩ : ∃ m, pathFuel table = m + 1 :=
    ⟨(tkeys table).length, by unfold pathFuel; omega⟩
  unfold findSafeRouteFrom
  rw [hn]
  simp only [searchLoop, initState, List.not_mem_nil, if_false, if_true, ite_true, ite_false]
  rw [if_neg (WithTop.coe_ne_top)]
  rw [hm]
  simp only [buildPath, if_pos hs, WithTop.coe_zero]

/-- Witness for C10: a one-node table with a danger zone of constant
nonzero intersection length and tolerance `0`. -/
theorem findSafeRouteFrom_same_node_witness :
    findSafeRouteFrom ([(((0 : ℚ), (0 : ℚ)), [])] : RoutingTable ℚ) [()]
        (fun _ _ _ => (7 : ℚ)) 0 (0, 0) (0, 0) =
      .ok ([((0 : ℚ), (0 : ℚ))], (0 : WithTop ℚ)) :=
  findSafeRouteFrom_same_node _ [()] (fun _ _ _ => (7 : ℚ)) 0 (0, 0) (by decide)

/-! ## C1: per-edge admissibility cap and cumulative tie-break. -/

/-- C1: during `find_safe_route`, an edge examined from the current node
is skipped — the relaxation leaves the state untouched before any
candidate is considered — exactly when the sum of its intersection
lengths over all registered danger zones strictly exceeds the tolerance;
when the sum is within the tolerance, the update fires precisely when the
candidate distance is strictly smaller, or equal with strictly smaller
cumulative danger.  In particular the cumulative danger value appears
only inside the equal-distance disjunct: a strictly smaller candidate
distance always relaxes, whatever the danger values, so the cumulative
length is a tie-breaker and never an independent hard constraint. -/
theorem relaxEdge_skip_iff_tiebreak {α : Type} [LinearOrderedField α] {Z : Type}
    (zones : List Z) (ilen : Z → Coord → Coord → α) (tol : α) (cd : α) (cur : Coord)
    (st : SState α) (e : RouteEntry α) (dc : α) (dn : WithTop α) (gn : α)
    (hdc : st.danger cur = some dc)
    (hdn : st.dist e.destination = some dn)
    (hgn : st.danger e.destination = some gn) :
    (tol < totalILen zones ilen cur e.destination →
      relaxEdge zones ilen tol cd cur st e = .ok st) ∧
    (totalILen zones ilen cur e.destination ≤ tol →
      relaxEdge zones ilen tol cd cur st e = .ok
        (if ((cd + e.distance : α) : WithTop α) < dn
            ∨ (((cd + e.distance : α) : WithTop α) = dn
                ∧ dc + totalILen zones ilen cur e.destination < gn)
        then relaxUpdate st cur e.destination (cd + e.distance)
              (dc + totalILen zones ilen cur e.destination)
        else st)) := by
  constructor
  · intro h
    simp only [relaxEdge]
    rw [if_pos h]
  · intro h
    simp only [relaxEdge, hdc, hdn, hgn]
    rw [if_neg (not_lt.2 h)]
    by_cases h1 : ((cd + e.distance : α) : WithTop α) < dn
    · rw [if_pos h1, if_pos (Or.inl h1)]
    · rw [if_neg h1]
      by_cases h2 : ((cd + e.distance : α) : WithTop α) = dn
      · rw [if_pos h2]
        by_cases h3 : dc + totalILen zones ilen cur e.destination < gn
        · rw [if_pos h3, if_pos (Or.inr ⟨h2, h3⟩)]
        · rw [if_neg h3, if_neg (by tauto)]
      · rw [if_neg h2, if_neg (by tauto)]

/-- Witness for C1: a single zone of intersection length `5` against
tolerance `3` makes the edge inadmissible, so the state is returned
untouched. -/
theorem relaxEdge_skip_iff_tiebreak_witness :
    relaxEdge [()] (fun _ _ _ => (5 : ℚ)) 3 0 (0, 0)
        ⟨fun _ => some ⊤, fun _ => some none, fun _ => some 0, [], []⟩
        ⟨(1, 0), (1, 0), 1, "primary", "road", false⟩ =
      .ok ⟨fun _ => some ⊤, fun _ => some none, fun _ => some 0, [], []⟩ :=
  (relaxEdge_skip_iff_tiebreak [()] (fun _ _ _ => (5 : ℚ)) 3 0 (0, 0)
    ⟨fun _ => some ⊤, fun _ => some none, fun _ => some 0, [], []⟩
    ⟨(1, 0), (1, 0), 1, "primary", "road", false⟩ 0 ⊤ 0 rfl rfl rfl).1
    (by norm_num [totalILen])

/-! ## C3: the no-route failure. -/

/-- A successful path reconstruction extends the accumulator by at least
the node it starts from. -/
theorem buildPath_ok_shape (prev : Coord → Option (Option Coord)) :
    ∀ (fuel : ℕ) (cur : Coord) (acc p : List Coord),
      buildPath prev fuel cur acc = .ok p → ∃ q, p = q ++ cur :: acc := by
  intro fuel
  induction fuel with
  | zero => intro cur acc p h; exact absurd h (by simp [buildPath])
  | succ f ih =>
    intro cur acc p h
    simp only [buildPath] at h
    cases hp : prev cur with
    | none => rw [hp] at h; exact absurd h (by simp)
    | some o =>
      cases o with
      | none =>
        rw [hp] at h
        simp only [Except.ok.injEq] at h
        exact ⟨[], h.symm⟩
      | some pr =>
        rw [hp] at h
        obtain ⟨q, hq⟩ := ih pr (cur :: acc) p h
        exact ⟨q ++ [pr], by simp [hq]⟩

/-- Path reconstruction can only fail with a `KeyError` or by running out
of fuel, never with the "no safe route" error. -/
theorem buildPath_err (prev : Coord → Option (Option Coord)) :
    ∀ (fuel : ℕ) (cur : Coord) (acc : List Coord) (err : SErr),
      buildPath prev fuel cur acc = .error err → err = .keyError ∨ err = .outOfFuel := by
  intro fuel
  induction fuel with
  | zero =>
    intro cur acc err h
    simp only [buildPath, Except.error.injEq] at h
    exact Or.inr h.symm
  | succ f ih =>
    intro cur acc err h
    simp only [buildPath] at h
    cases hp : prev cur with
    | none =>
      rw [hp] at h
      simp only [Except.error.injEq] at h
      exact Or.inl h.symm
    | some o =>
      cases o with
      | none => rw [hp] at h; exact absurd h (by simp)
      | some pr => rw [hp] at h; exact ih pr (cur :: acc) err h

/-- C3: when the search loop ends (returns a final state), the whole call
fails with the distinct, recoverable "no safe route" error exactly when
the end node's tentative distance is still `+inf` in that final state;
and a successful call never returns an empty path — every returned path
is nonempty and ends at the end node. -/
theorem no_route_failure {α : Type} [LinearOrderedField α] {Z : Type}
    (table : RoutingTable α) (zones : List Z) (ilen : Z → Coord → Coord → α) (tol : α)
    (s e : Coord) (stF : SState α)
    (hloop : searchLoop table zones ilen tol e (searchFuel table s) (initState table s) =
      .ok stF) :
    (findSafeRouteFrom table zones ilen tol s e = .error .noSafeRoute ↔
      stF.dist e = some ⊤) ∧
    (∀ p c, findSafeRouteFrom table zones ilen tol s e = .ok (p, c) →
      p ≠ [] ∧ p.getLast? = some e) := by
  unfold findSafeRouteFrom
  rw [hloop]
  dsimp only
  cases hde : stF.dist e with
  | none => simp
  | some de =>
    dsimp only
    by_cases hT : de = ⊤
    · subst hT
      simp
    · rw [if_neg hT]
      cases hbp : buildPath stF.prev (pathFuel table) e [] with
      | error err =>
        constructor
        · constructor
          · intro h
            simp only [Except.error.injEq] at h
            rcases buildPath_err stF.prev (pathFuel table) e [] err hbp with h1 | h1 <;>
              simp [h1] at h
          · intro h
            simp only [Option.some.injEq] at h
            exact absurd h hT
        · intro p c h
          exact absurd h (by simp)
      | ok p =>
        constructor
        · constructor
          · intro h; exact absurd h (by simp)
          · intro h
            simp only [Option.some.injEq] at h
            exact absurd h hT
        · intro p' c h
          simp only [Except.ok.injEq, Prod.mk.injEq] at h
          obtain ⟨q, hq⟩ := buildPath_ok_shape stF.prev (pathFuel table) e [] p hbp
          constructor
          · rw [← h.1, hq]
            simp
          · rw [← h.1, hq]
            exact List.getLast?_concat q

/-- Witness for C3: a two-node table with no edges at all; the end node
is unreachable, the loop drains, and the call fails with the "no safe
route" error. -/
theorem no_route_failure_witness :
    findSafeRouteFrom ([(((0 : ℚ), (0 : ℚ)), []), (((1 : ℚ), (0 : ℚ)), [])] : RoutingTable ℚ)
        ([] : List Unit) (fun _ _ _ => (0 : ℚ)) 0 (0, 0) (1, 0) = .error .noSafeRoute :=
  ((no_route_failure ([(((0 : ℚ), (0 : ℚ)), []), (((1 : ℚ), (0 : ℚ)), [])] : RoutingTable ℚ)
      ([] : List Unit) (fun _ _ _ => (0 : ℚ)) 0 (0, 0) (1, 0)
      { initState ([(((0 : ℚ), (0 : ℚ)), []), (((1 : ℚ), (0 : ℚ)), [])] : RoutingTable ℚ)
          (0, 0) with
        visited := [((0 : ℚ), (0 : ℚ))], pq := [] }
      rfl).1).mpr rfl

/-! ## Search-state invariants (towards C9). -/

/-- A present table key has a successful lookup. -/
theorem mem_tkeys_alookup {α : Type} (t : RoutingTable α) (c : Coord) (hc : c ∈ tkeys t) :
    ∃ es, alookup c t = some es := by
  induction t with
  | nil => exact absurd hc (by simp [tkeys])
  | cons kv rest ih =>
    obtain ⟨k, v⟩ := kv
    by_cases h : k = c
    · exact ⟨v, by simp [alookup, h]⟩
    · have hck : c ∈ k :: tkeys rest := hc
      have hc' : c ∈ tkeys rest := by
        rcases List.mem_cons.1 hck with h1 | h1
        · exact absurd h1.symm h
        · exact h1
      obtain ⟨es, hes⟩ := ih hc'
      exact ⟨es, by simp [alookup, h, hes]⟩

/-- Members of the queue after a push. -/
theorem mem_pqInsert {α : Type} [LinearOrderedField α] (y : α × Coord) :
    ∀ (l : List (α × Coord)) (x : α × Coord), x ∈ pqInsert y l → x = y ∨ x ∈ l := by
  intro l
  induction l with
  | nil => intro x hx; simpa [pqInsert] using hx
  | cons z zs ih =>
    intro x hx
    simp only [pqInsert] at hx
    by_cases hc : y.1 < z.1 ∨ (y.1 = z.1 ∧ coordLt y.2 z.2)
    · rw [if_pos hc] at hx
      rcases List.mem_cons.1 hx with h1 | h1
      · exact Or.inl h1
      · exact Or.inr h1
    · rw [if_neg hc] at hx
      rcases List.mem_cons.1 hx with h1 | h1
      · exact Or.inr (h1 ▸ List.mem_cons_self z zs)
      · rcases ih x h1 with h2 | h2
        · exact Or.inl h2
        · exact Or.inr (List.mem_cons_of_mem z h2)

/-- A relaxation write at a table-key neighbor preserves the invariant. -/
theorem relaxUpdate_good {α : Type} [LinearOrderedField α] (keys : List Coord)
    (st : SState α) (cur nb : Coord) (d ni : α)
    (hst : GoodState keys st) (hcur : cur ∈ keys) (hnb : nb ∈ keys) :
    GoodState keys (relaxUpdate st cur nb d ni) := by
  obtain ⟨hpq, hdist, hdanger, hprev, hpval, hdom⟩ := hst
  refine ⟨?_, ?_, ?_, ?_, ?_, ?_⟩
  · intro x hx
    rcases mem_pqInsert (d, nb) st.pq x hx with h1 | h1
    · rw [h1]; exact hnb
    · exact hpq x h1
  · intro c hc
    by_cases h : c = nb
    · simp [relaxUpdate, h]
    · simpa [relaxUpdate, h] using hdist c hc
  · intro c hc
    by_cases h : c = nb
    · simp [relaxUpdate, h]
    · simpa [relaxUpdate, h] using hdanger c hc
  · intro c hc
    by_cases h : c = nb
    · simp [relaxUpdate, h]
    · simpa [relaxUpdate, h] using hprev c hc
  · intro c v hv
    by_cases h : c = nb
    · simp only [relaxUpdate, if_pos h, Option.some.injEq] at hv
      exact hv ▸ hcur
    · simp only [relaxUpdate, if_neg h] at hv
      exact hpval c v hv
  · intro c hc
    by_cases h : c = nb
    · rw [h]; exact hnb
    · simp only [relaxUpdate, if_neg h] at hc
      exact hdom c hc

/-- Relaxing one edge with a table-key destination never raises and
preserves the invariant. -/
theorem relaxEdge_good {α : Type} [LinearOrderedField α] {Z : Type} (zones : List Z)
    (ilen : Z → Coord → Coord → α) (tol : α) (cd : α) (keys : List Coord) (cur : Coord)
    (st : SState α) (e : RouteEntry α)
    (hcur : cur ∈ keys) (hnb : e.destination ∈ keys) (hst : GoodState keys st) :
    ∃ st', relaxEdge zones ilen tol cd cur st e = .ok st' ∧ GoodState keys st' := by
  simp only [relaxEdge]
  by_cases hskip : tol < totalILen zones ilen cur e.destination
  · exact ⟨st, by rw [if_pos hskip], hst⟩
  · rw [if_neg hskip]
    obtain ⟨dc, hdc⟩ := Option.ne_none_iff_exists'.1 (hst.2.2.1 cur hcur)
    obtain ⟨dn, hdn⟩ := Option.ne_none_iff_exists'.1 (hst.2.1 e.destination hnb)
    obtain ⟨gn, hgn⟩ := Option.ne_none_iff_exists'.1 (hst.2.2.1 e.destination hnb)
    simp only [hdc, hdn, hgn]
    by_cases h1 : ((cd + e.distance : α) : WithTop α) < dn
    · rw [if_pos h1]
      exact ⟨_, rfl, relaxUpdate_good keys st cur e.destination _ _ hst hcur hnb⟩
    · rw [if_neg h1]
      by_cases h2 : ((cd + e.distance : α) : WithTop α) = dn
      · rw [if_pos h2]
        by_cases h3 : dc + totalILen zones ilen cur e.destination < gn
        · rw [if_pos h3]
          exact ⟨_, rfl, relaxUpdate_good keys st cur e.destination _ _ hst hcur hnb⟩
        · rw [if_neg h3]
          exact ⟨st, rfl, hst⟩
      · rw [if_neg h2]
        exact ⟨st, rfl, hst⟩

/-- Relaxing a whole edge list of table-key destinations never raises
and preserves the invariant. -/
theorem relaxAll_good {α : Type} [LinearOrderedField α] {Z : Type} (zones : List Z)
    (ilen : Z → Coord → Coord → α) (tol : α) (cd : α) (keys : List Coord) (cur : Coord)
    (hcur : cur ∈ keys) :
    ∀ (es : List (RouteEntry α)) (st : SState α),
      (∀ ent ∈ es, ent.destination ∈ keys) → GoodState keys st →
      ∃ st', relaxAll zones ilen tol cd cur st es = .ok st' ∧ GoodState keys st' := by
  intro es
  induction es with
  | nil => intro st _ hst; exact ⟨st, rfl, hst⟩
  | cons e rest ih =>
    intro st hdest hst
    obtain ⟨st1, h1, hg1⟩ := relaxEdge_good zones ilen tol cd keys cur st e hcur
      (hdest e (List.mem_cons_self e rest)) hst
    obtain ⟨st2, h2, hg2⟩ := ih st1 (fun ent hent => hdest ent (List.mem_cons_of_mem e hent)) hg1
    refine ⟨st2, ?_, hg2⟩
    simp only [relaxAll, List.foldlM_cons]
    rw [h1]
    simpa [relaxAll] using h2

/-- Under destination closure, the search loop never raises a
`KeyError`: it either exhausts its fuel or completes with the invariant
intact. -/
theorem searchLoop_good {α : Type} [LinearOrderedField α] {Z : Type}
    (table : RoutingTable α) (zones : List Z) (ilen : Z → Coord → Coord → α) (tol : α)
    (endN : Coord) (hclosed : DestClosed table) :
    ∀ (fuel : ℕ) (st : SState α), GoodState (tkeys table) st →
      searchLoop table zones ilen tol endN fuel st = .error .outOfFuel ∨
        ∃ stF, searchLoop table zones ilen tol endN fuel st = .ok stF ∧
          GoodState (tkeys table) stF := by
  intro fuel
  induction fuel with
  | zero => intro st _; exact Or.inl rfl
  | succ f ih =>
    intro st hst
    cases hpq : st.pq with
    | nil =>
      right
      refine ⟨st, ?_, hst⟩
      simp only [searchLoop]
      rw [hpq]
    | cons x rest =>
      obtain ⟨cd, cur⟩ := x
      have hcur : cur ∈ tkeys table := hst.1 (cd, cur) (by rw [hpq]; exact List.mem_cons_self _ _)
      have hrest : ∀ y ∈ rest, y.2 ∈ tkeys table := fun y hy =>
        hst.1 y (by rw [hpq]; exact List.mem_cons_of_mem _ hy)
      by_cases hv : cur ∈ st.visited
      · have hst' : GoodState (tkeys table) { st with pq := rest } :=
          ⟨hrest, hst.2.1, hst.2.2.1, hst.2.2.2.1, hst.2.2.2.2.1, hst.2.2.2.2.2⟩
        have hstep : searchLoop table zones ilen tol endN (f + 1) st =
            searchLoop table zones ilen tol endN f { st with pq := rest } := by
          simp only [searchLoop]
          rw [hpq]
          dsimp only
          rw [if_pos hv]
        rw [hstep]
        exact ih { st with pq := rest } hst'
      · have hst1 : GoodState (tkeys table) { st with visited := cur :: st.visited, pq := rest } :=
          ⟨hrest, hst.2.1, hst.2.2.1, hst.2.2.2.1, hst.2.2.2.2.1, hst.2.2.2.2.2⟩
        by_cases he : cur = endN
        · right
          refine ⟨{ st with visited := cur :: st.visited, pq := rest }, ?_, hst1⟩
          simp only [searchLoop]
          rw [hpq]
          dsimp only
          rw [if_neg hv, if_pos he]
        · obtain ⟨es, hes⟩ := mem_tkeys_alookup table cur hcur
          obtain ⟨st2, h2, hg2⟩ := relaxAll_good zones ilen tol cd (tkeys table) cur hcur es
            { st with visited := cur :: st.visited, pq := rest }
            (hclosed cur es hes) hst1
          have hstep : searchLoop table zones ilen tol endN (f + 1) st =
              searchLoop table zones ilen tol endN f st2 := by
            simp only [searchLoop]
            rw [hpq]
            dsimp only
            rw [if_neg hv, if_neg he, hes]
            dsimp only
            rw [h2]
            rfl
          rw [hstep]
          exact ih st2 hg2

/-- The initial state satisfies the invariant when the start node is a
table key. -/
theorem initState_good {α : Type} [LinearOrderedField α] (table : RoutingTable α)
    (s : Coord) (hs : s ∈ tkeys table) :
    GoodState (tkeys table) (initState table s) := by
  refine ⟨?_, ?_, ?_, ?_, ?_, ?_⟩
  · intro x hx
    simp only [initState, List.mem_singleton] at hx
    rw [hx]
    exact hs
  · intro c hc
    simp only [initState]
    by_cases h : c = s
    · simp [h]
    · simp [h, hc]
  · intro c hc
    simp [initState, hc]
  · intro c hc
    simp [initState, hc]
  · intro c v hv
    simp only [initState] at hv
    by_cases h : c ∈ tkeys table
    · rw [if_pos h] at hv
      exact absurd (Option.some_inj.1 hv) (by simp)
    · rw [if_neg h] at hv
      exact absurd hv (by simp)
  · intro c hc
    simp only [initState] at hc
    by_cases h : c = s
    · rw [h]; exact hs
    · rw [if_neg h] at hc
      by_cases h2 : c ∈ tkeys table
      · exact h2
      · rw [if_neg h2] at hc
        exact absurd rfl hc

/-- Path reconstruction starting at a table key never raises a
`KeyError` when predecessors are populated on keys and point at keys. -/
theorem buildPath_no_keyError (prev : Coord → Option (Option Coord)) (keys : List Coord)
    (hprev : ∀ c ∈ keys, prev c ≠ none)
    (hval : ∀ c v, prev c = some (some v) → v ∈ keys) :
    ∀ (fuel : ℕ) (cur : Coord) (acc : List Coord), cur ∈ keys →
      buildPath prev fuel cur acc ≠ .error .keyError := by
  intro fuel
  induction fuel with
  | zero => intro cur acc _ h; simp [buildPath] at h
  | succ f ih =>
    intro cur acc hcur h
    simp only [buildPath] at h
    cases hp : prev cur with
    | none => exact absurd hp (hprev cur hcur)
    | some o =>
      rw [hp] at h
      cases o with
      | none => simp at h
      | some pr => exact ih pr (cur :: acc) (hval cur pr hp) h

/-- Under destination closure of the table and snapped (hence present)
endpoints, `findSafeRouteFrom` never fails with a `KeyError`: the
per-node maps are never read at a missing key. -/
theorem findSafeRouteFrom_no_keyError {α : Type} [LinearOrderedField α] {Z : Type}
    (table : RoutingTable α) (zones : List Z) (ilen : Z → Coord → Coord → α) (tol : α)
    (s e : Coord) (hclosed : DestClosed table) (hs : s ∈ tkeys table) (he : e ∈ tkeys table) :
    findSafeRouteFrom table zones ilen tol s e ≠ .error .keyError := by
  unfold findSafeRouteFrom
  rcases searchLoop_good table zones ilen tol e hclosed (searchFuel table s)
      (initState table s) (initState_good table s hs) with h | ⟨stF, hF, hgF⟩
  · rw [h]
    simp
  · rw [hF]
    dsimp only
    obtain ⟨de, hde⟩ := Option.ne_none_iff_exists'.1 (hgF.2.1 e he)
    rw [hde]
    dsimp only
    by_cases hT : de = ⊤
    · rw [if_pos hT]
      simp
    · rw [if_neg hT]
      cases hbp : buildPath stF.prev (pathFuel table) e [] with
      | error err =>
        have hne := buildPath_no_keyError stF.prev (tkeys table) hgF.2.2.2.1 hgF.2.2.2.2.1
          (pathFuel table) e [] he
        rw [hbp] at hne
        intro hcontra
        simp only [Except.error.injEq] at hcontra
        exact hne (by rw [hcontra])
      | ok p => simp

/-! ## The road-network builder: graph lemmas (towards C4 and C9). -/

/-- The unordered edge-key test is symmetric in its endpoints. -/
theorem keyMatches_symm (k : Coord × Coord) (p q : Coord) :
    keyMatches k p q = keyMatches k q p := by
  simp only [keyMatches]
  by_cases h1 : k.1 = p <;> by_cases h2 : k.2 = q <;> by_cases h3 : k.1 = q <;>
    by_cases h4 : k.2 = p <;> simp [h1, h2, h3, h4]

/-- `get_edge_data` reads the same stored attributes in both
directions. -/
theorem get_edge_data_symm (G : NXGraph) (p q : Coord) :
    get_edge_data G p q = get_edge_data G q p := by
  simp only [get_edge_data]
  congr 1
  induction G.adj with
  | nil => rfl
  | cons kb rest ih =>
    simp only [List.find?_cons, keyMatches_symm kb.1 p q]
    cases keyMatches kb.1 q p with
    | true => rfl
    | false => exact ih

/-- `addNode` facts: the edge list is untouched, the node is present
afterwards, old nodes stay, and duplicate-freeness is preserved. -/
theorem addNode_nodes (G : NXGraph) (p : Coord) :
    (addNode G p).adj = G.adj ∧ p ∈ (addNode G p).nodes ∧
      (∀ r ∈ G.nodes, r ∈ (addNode G p).nodes) ∧
      ((addNode G p).nodes.Nodup ↔ G.nodes.Nodup) := by
  by_cases h : p ∈ G.nodes
  · simp [addNode, h]
  · refine ⟨by simp [addNode, h], by simp [addNode, h], ?_, by simp [addNode, h, List.nodup_append]⟩
    intro r hr
    simp [addNode, h, hr]

/-- Members of the edge list after a `setAdj` write. -/
theorem mem_setAdj (p q : Coord) (a : EdgeAttrs) :
    ∀ (l : List ((Coord × Coord) × EdgeAttrs)) (kb : (Coord × Coord) × EdgeAttrs),
      kb ∈ setAdj p q a l → kb = ((p, q), a) ∨ ∃ b, (kb.1, b) ∈ l := by
  intro l
  induction l with
  | nil => intro kb h; simpa [setAdj] using h
  | cons z zs ih =>
    intro kb h
    simp only [setAdj] at h
    by_cases hm : keyMatches z.1 p q = true
    · rw [if_pos hm] at h
      rcases List.mem_cons.1 h with h1 | h1
      · exact Or.inr ⟨z.2, by rw [h1]; exact List.mem_cons_self z zs⟩
      · exact Or.inr ⟨kb.2, List.mem_cons_of_mem z h1⟩
    · rw [if_neg hm] at h
      rcases List.mem_cons.1 h with h1 | h1
      · exact Or.inr ⟨z.2, by rw [h1]; exact List.mem_cons_self z zs⟩
      · rcases ih kb h1 with h2 | h2
        · exact Or.inl h2
        · obtain ⟨b, hb⟩ := h2
          exact Or.inr ⟨b, List.mem_cons_of_mem z hb⟩

/-- `add_edge` preserves graph well-formedness. -/
theorem add_edge_wf (G : NXGraph) (p q : Coord) (a : EdgeAttrs) (h : NXWF G) :
    NXWF (add_edge G p q a) := by
  obtain ⟨hnd, hadj⟩ := h
  obtain ⟨ha1, hp1, hmono1, hnd1⟩ := addNode_nodes G p
  obtain ⟨ha2, hp2, hmono2, hnd2⟩ := addNode_nodes (addNode G p) q
  constructor
  · show (addNode (addNode G p) q).nodes.Nodup
    exact hnd2.2 (hnd1.2 hnd)
  · intro kb hkb
    have hq : q ∈ (addNode (addNode G p) q).nodes := hp2
    have hp' : p ∈ (addNode (addNode G p) q).nodes := hmono2 p hp1
    have hadj' : ∀ kb ∈ (addNode (addNode G p) q).adj,
        kb.1.1 ∈ (addNode (addNode G p) q).nodes ∧ kb.1.2 ∈ (addNode (addNode G p) q).nodes := by
      intro kb hkb
      rw [ha2, ha1] at hkb
      obtain ⟨h1, h2⟩ := hadj kb hkb
      exact ⟨hmono2 _ (hmono1 _ h1), hmono2 _ (hmono1 _ h2)⟩
    rcases mem_setAdj p q a (addNode (addNode G p) q).adj kb hkb with h1 | ⟨b, hb⟩
    · rw [h1]
      exact ⟨hp', hq⟩
    · exact hadj' (kb.1, b) hb

/-- After writing the pair `{p, q}`, looking the pair up finds exactly
the written attributes. -/
theorem find?_setAdj_self (p q : Coord) (a : EdgeAttrs) :
    ∀ l : List ((Coord × Coord) × EdgeAttrs),
      ((setAdj p q a l).find? (fun kb => keyMatches kb.1 p q)).map Prod.snd = some a := by
  intro l
  induction l with
  | nil =>
    simp only [setAdj, List.find?_singleton]
    have h : keyMatches (p, q) p q = true := by simp [keyMatches]
    simp [h]
  | cons z zs ih =>
    simp only [setAdj]
    by_cases hm : keyMatches z.1 p q = true
    · rw [if_pos hm]
      simp [List.find?_cons, hm]
    · rw [if_neg hm]
      rw [List.find?_cons]
      simp only [hm]
      exact ih

/-- `add_edge` stores its attributes under the unordered pair. -/
theorem get_edge_data_add_edge_self (G : NXGraph) (p q : Coord) (a : EdgeAttrs) :
    get_edge_data (add_edge G p q a) p q = some a := by
  simp only [get_edge_data, add_edge]
  exact find?_setAdj_self p q a _

/-- A `setAdj` write never removes an existing unordered key. -/
theorem find?_setAdj_pres (p q u v : Coord) (b : EdgeAttrs) :
    ∀ l : List ((Coord × Coord) × EdgeAttrs),
      (l.find? (fun kb => keyMatches kb.1 p q)).isSome →
      ((setAdj u v b l).find? (fun kb => keyMatches kb.1 p q)).isSome := by
  intro l
  induction l with
  | nil => intro h; simp at h
  | cons z zs ih =>
    intro h
    simp only [setAdj]
    by_cases hm : keyMatches z.1 u v = true
    · rw [if_pos hm]
      rw [List.find?_cons] at h ⊢
      cases hz : keyMatches z.1 p q with
      | true => simp [hz]
      | false => simp only [hz] at h ⊢; exact h
    · rw [if_neg hm]
      rw [List.find?_cons] at h ⊢
      cases hz : keyMatches z.1 p q with
      | true => simp [hz]
      | false => simp only [hz] at h ⊢; exact ih h

/-- `add_edge` never removes an existing edge. -/
theorem get_edge_data_add_edge_pres (G : NXGraph) (p q u v : Coord) (b : EdgeAttrs)
    (h : (get_edge_data G p q).isSome) :
    (get_edge_data (add_edge G u v b) p q).isSome := by
  simp only [get_edge_data, add_edge] at h ⊢
  have ha1 := (addNode_nodes G u).1
  have ha2 := (addNode_nodes (addNode G u) v).1
  rw [ha2, ha1]
  cases hf : G.adj.find? (fun kb => keyMatches kb.1 p q) with
  | none => rw [hf] at h; simp at h
  | some kb =>
    have hpres := find?_setAdj_pres p q u v b G.adj (by rw [hf]; rfl)
    cases hf2 : (setAdj u v b G.adj).find? (fun kb => keyMatches kb.1 p q) with
    | none => rw [hf2] at hpres; simp at hpres
    | some kb2 => simp [hf2]

/-- `add_edge` never removes a node. -/
theorem mem_nodes_add_edge (G : NXGraph) (p q r : Coord) (a : EdgeAttrs)
    (h : r ∈ G.nodes) : r ∈ (add_edge G p q a).nodes := by
  simp only [add_edge]
  exact (addNode_nodes (addNode G p) q).2.2.1 r ((addNode_nodes G p).2.2.1 r h)

/-- A stored edge makes its far endpoint a neighbor. -/
theorem neighbors_of_get_edge_data (G : NXGraph) (p q : Coord) (a : EdgeAttrs)
    (h : get_edge_data G p q = some a) : q ∈ nxNeighbors G p := by
  simp only [get_edge_data, Option.map_eq_some'] at h
  obtain ⟨kb, hfind, _⟩ := h
  have hmem : kb ∈ G.adj := List.mem_of_find?_eq_some hfind
  have hkey : keyMatches kb.1 p q = true := by
    have hh := List.find?_some hfind
    simpa using hh
  simp only [keyMatches, Bool.or_eq_true, Bool.and_eq_true, decide_eq_true_eq] at hkey
  simp only [nxNeighbors, List.mem_filterMap]
  rcases hkey with ⟨h1, h2⟩ | ⟨h1, h2⟩
  · exact ⟨kb, hmem, by rw [if_pos h1, h2]⟩
  · refine ⟨kb, hmem, ?_⟩
    by_cases hc : kb.1.1 = p
    · rw [if_pos hc]
      rw [hc] at h1
      rw [← h1, h2]
    · rw [if_neg hc, if_pos h2, h1]

/-- A fold preserves any property its step preserves. -/
theorem foldl_preserve {γ β : Type} (f : γ → β → γ) (P : γ → Prop)
    (hstep : ∀ g b, P g → P (f g b)) : ∀ (l : List β) (g : γ), P g → P (l.foldl f g) := by
  intro l
  induction l with
  | nil => intro g h; exact h
  | cons x xs ih => intro g h; exact ih (f g x) (hstep g x h)

/-- Processing one node-id pair preserves well-formedness. -/
theorem processWay_wf (nodes : List (ℕ × Coord)) (rtype nm : String) (ow : Bool)
    (G : NXGraph) (pr : ℕ × ℕ) (h : NXWF G) : NXWF (processWay nodes rtype nm ow G pr) := by
  simp only [processWay]
  cases alookup pr.1 nodes with
  | none => exact h
  | some p1 =>
    cases alookup pr.2 nodes with
    | none => exact h
    | some p2 => exact add_edge_wf G p1 p2 _ h

/-- Processing one raw element preserves well-formedness. -/
theorem graphStep_wf (nodes : List (ℕ × Coord)) (G : NXGraph) (e : OSMElement)
    (h : NXWF G) : NXWF (graphStep nodes G e) := by
  cases e with
  | node i la lo => exact h
  | way nids tags =>
    simp only [graphStep]
    cases alookup "highway" tags with
    | none => exact h
    | some rtype =>
      exact foldl_preserve _ NXWF (fun g b hg => processWay_wf nodes rtype _ _ g b hg)
        (consecPairs nids) G h

/-- The graph built from any raw data is well-formed. -/
theorem create_road_graph_wf (data : List OSMElement) : NXWF (create_road_graph data) := by
  unfold create_road_graph
  exact foldl_preserve _ NXWF (fun g b hg => graphStep_wf (nodesDict data) g b hg) data
    ⟨[], []⟩ ⟨List.nodup_nil, fun kb hkb => absurd hkb (List.not_mem_nil kb)⟩

/-- Processing one node-id pair never removes an edge. -/
theorem processWay_pres (nodes : List (ℕ × Coord)) (rtype nm : String) (ow : Bool)
    (G : NXGraph) (pr : ℕ × ℕ) (p q : Coord)
    (h : (get_edge_data G p q).isSome) :
    (get_edge_data (processWay nodes rtype nm ow G pr) p q).isSome := by
  simp only [processWay]
  cases alookup pr.1 nodes with
  | none => exact h
  | some p1 =>
    cases alookup pr.2 nodes with
    | none => exact h
    | some p2 => exact get_edge_data_add_edge_pres G p q p1 p2 _ h

/-- Processing one raw element never removes an edge. -/
theorem graphStep_pres (nodes : List (ℕ × Coord)) (G : NXGraph) (e : OSMElement)
    (p q : Coord) (h : (get_edge_data G p q).isSome) :
    (get_edge_data (graphStep nodes G e) p q).isSome := by
  cases e with
  | node i la lo => exact h
  | way nids tags =>
    simp only [graphStep]
    cases alookup "highway" tags with
    | none => exact h
    | some rtype =>
      exact foldl_preserve _ (fun g => (get_edge_data g p q).isSome)
        (fun g b hg => processWay_pres nodes rtype _ _ g b p q hg) (consecPairs nids) G h

/-- The edge added for a resolvable consecutive pair of a highway way is
still present in the finished graph. -/
theorem create_road_graph_edge (data : List OSMElement) (nids : List ℕ)
    (tags : List (String × String)) (hway : OSMElement.way nids tags ∈ data)
    (rtype : String) (hhw : alookup "highway" tags = some rtype)
    (n1 n2 : ℕ) (hpair : (n1, n2) ∈ consecPairs nids)
    (p1 p2 : Coord) (h1 : alookup n1 (nodesDict data) = some p1)
    (h2 : alookup n2 (nodesDict data) = some p2) :
    (get_edge_data (create_road_graph data) p1 p2).isSome := by
  obtain ⟨pre, post, hdata⟩ := List.append_of_mem hway
  obtain ⟨pre2, post2, hpairs⟩ := List.append_of_mem hpair
  have key : ∀ N : List (ℕ × Coord), alookup n1 N = some p1 → alookup n2 N = some p2 →
      (get_edge_data ((pre ++ OSMElement.way nids tags :: post).foldl (graphStep N)
        ⟨[], []⟩) p1 p2).isSome := by
    intro N hn1 hn2
    rw [List.foldl_append, List.foldl_cons]
    apply foldl_preserve _ (fun g => (get_edge_data g p1 p2).isSome)
      (fun g b hg => graphStep_pres N g b p1 p2 hg) post
    show (get_edge_data
      (graphStep N (pre.foldl (graphStep N) ⟨[], []⟩) (OSMElement.way nids tags))
        p1 p2).isSome
    simp only [graphStep, hhw]
    rw [hpairs, List.foldl_append, List.foldl_cons]
    apply foldl_preserve _ (fun g => (get_edge_data g p1 p2).isSome)
      (fun g b hg => processWay_pres N rtype _ _ g b p1 p2 hg) post2
    show (get_edge_data (processWay N rtype _ _ _ (n1, n2)) p1 p2).isSome
    simp only [processWay, hn1, hn2]
    rw [get_edge_data_add_edge_self]
    rfl
  unfold create_road_graph
  rw [hdata]
  exact key (nodesDict (pre ++ OSMElement.way nids tags :: post)) (hdata ▸ h1) (hdata ▸ h2)

/-- Looking up a present key in the built (and filtered) table. -/
theorem alookup_map_filter {β : Type} (F : Coord → List β) :
    ∀ (l : List Coord), l.Nodup → ∀ p ∈ l, F p ≠ [] →
      alookup p ((l.map (fun n => (n, F n))).filter (fun x => !x.2.isEmpty)) = some (F p) := by
  intro l
  induction l with
  | nil => intro _ p hp; exact absurd hp (List.not_mem_nil p)
  | cons x xs ih =>
    intro hnd p hp hne
    have hnd' : xs.Nodup := hnd.of_cons
    rw [List.map_cons, List.filter_cons]
    by_cases hx : x = p
    · have hkeep : (!(F x).isEmpty) = true := by
        rw [hx]
        simpa [List.isEmpty_iff] using hne
      rw [if_pos hkeep]
      simp [alookup, hx]
    · have hp' : p ∈ xs := by
        rcases List.mem_cons.1 hp with h1 | h1
        · exact absurd h1.symm hx
        · exact h1
      by_cases hkeep : (!(F x).isEmpty) = true
      · rw [if_pos hkeep]
        simp only [alookup, if_neg hx]
        exact ih hnd' p hp' hne
      · rw [if_neg hkeep]
        exact ih hnd' p hp' hne

/-- A node with at least one edge object is a table key mapped to its
edge-object list. -/
theorem alookup_create_routing_table (G : NXGraph) (hnd : G.nodes.Nodup) (p : Coord)
    (hp : p ∈ G.nodes) (hne : entriesFor G p ≠ []) :
    alookup p (create_routing_table G) = some (entriesFor G p) :=
  alookup_map_filter (entriesFor G) G.nodes hnd p hp hne

/-- The edge object of a stored edge appears in the node's list. -/
theorem edgeEntry_mem_entriesFor (G : NXGraph) (p q : Coord) (a : EdgeAttrs)
    (h : get_edge_data G p q = some a) : edgeEntry q a ∈ entriesFor G p := by
  simp only [entriesFor, List.mem_filterMap]
  exact ⟨q, neighbors_of_get_edge_data G p q a h, by rw [h]; rfl⟩

/-- A successful lookup exhibits a list member. -/
theorem alookup_some_mem {κ β : Type} [DecidableEq κ] (k : κ) :
    ∀ (l : List (κ × β)) (v : β), alookup k l = some v → (k, v) ∈ l := by
  intro l
  induction l with
  | nil => intro v h; simp [alookup] at h
  | cons kv rest ih =>
    intro v h
    obtain ⟨k', v'⟩ := kv
    simp only [alookup] at h
    by_cases hk : k' = k
    · rw [if_pos hk] at h
      rw [← hk, Option.some_inj.1 h]
      exact List.mem_cons_self _ _
    · rw [if_neg hk] at h
      exact List.mem_cons_of_mem _ (ih v h)

/-- A successful lookup makes the key a table key. -/
theorem mem_tkeys_of_alookup {α : Type} (t : RoutingTable α) (c : Coord)
    (es : List (RouteEntry α)) (h : alookup c t = some es) : c ∈ tkeys t := by
  have hmem := alookup_some_mem c t es h
  simp only [tkeys, List.mem_map]
  exact ⟨(c, es), hmem, rfl⟩

/-- Both endpoints of a stored edge are graph nodes. -/
theorem endpoints_mem (G : NXGraph) (hWF : NXWF G) (p q : Coord) (a : EdgeAttrs)
    (h : get_edge_data G p q = some a) : p ∈ G.nodes ∧ q ∈ G.nodes := by
  simp only [get_edge_data, Option.map_eq_some'] at h
  obtain ⟨kb, hfind, _⟩ := h
  have hmem : kb ∈ G.adj := List.mem_of_find?_eq_some hfind
  have hkey : keyMatches kb.1 p q = true := by
    have hh := List.find?_some hfind
    simpa using hh
  simp only [keyMatches, Bool.or_eq_true, Bool.and_eq_true, decide_eq_true_eq] at hkey
  obtain ⟨hm1, hm2⟩ := hWF.2 kb hmem
  rcases hkey with ⟨e1, e2⟩ | ⟨e1, e2⟩
  · exact ⟨e1 ▸ hm1, e2 ▸ hm2⟩
  · exact ⟨e2 ▸ hm2, e1 ▸ hm1⟩

/-- The destination-closure half of C9, on its own: every table built by
`create_routing_table` from `create_road_graph` output is closed under
destinations. -/
theorem create_routing_table_closed (data : List OSMElement) :
    DestClosed (create_routing_table (create_road_graph data)) := by
  intro c es hes ent hent
  have hWF := create_road_graph_wf data
  have hmem := alookup_some_mem c (create_routing_table (create_road_graph data)) es hes
  simp only [create_routing_table, List.mem_filter, List.mem_map] at hmem
  obtain ⟨⟨n, hn, heq⟩, hne⟩ := hmem
  have hnc : n = c := congrArg Prod.fst heq
  have hese : entriesFor (create_road_graph data) n = es := congrArg Prod.snd heq
  rw [← hese] at hent
  simp only [entriesFor, List.mem_filterMap] at hent
  obtain ⟨nb, hnb, hmap⟩ := hent
  rw [Option.map_eq_some'] at hmap
  obtain ⟨a, ha, hent'⟩ := hmap
  have hdest : ent.destination = nb := by rw [← hent']; rfl
  have hsym : get_edge_data (create_road_graph data) nb n = some a := by
    rw [get_edge_data_symm]
    exact ha
  have hnbmem : nb ∈ (create_road_graph data).nodes :=
    (endpoints_mem (create_road_graph data) hWF nb n a hsym).1
  have hmemnb : edgeEntry n a ∈ entriesFor (create_road_graph data) nb :=
    edgeEntry_mem_entriesFor (create_road_graph data) nb n a hsym
  have hnenb : entriesFor (create_road_graph data) nb ≠ [] := List.ne_nil_of_mem hmemnb
  have hlook := alookup_create_routing_table (create_road_graph data) hWF.1 nb hnbmem hnenb
  rw [hdest]
  exact mem_tkeys_of_alookup _ nb _ hlook

/-- C4: for every way record carrying a `highway` tag and every
consecutive node-id pair of it whose both ids resolve in the node index,
the built routing table has an adjacency entry in both directions, the
two entries carry the same `distance` value and the same `oneway` flag
(the flag is stored as metadata on both and never suppresses a
direction), whatever the `oneway` tag of the way was. -/
theorem way_pairs_bidirectional (data : List OSMElement) (nids : List ℕ)
    (tags : List (String × String)) (hway : OSMElement.way nids tags ∈ data)
    (rtype : String) (hhw : alookup "highway" tags = some rtype)
    (n1 n2 : ℕ) (hpair : (n1, n2) ∈ consecPairs nids)
    (p1 p2 : Coord) (h1 : alookup n1 (nodesDict data) = some p1)
    (h2 : alookup n2 (nodesDict data) = some p2) :
    ∃ es1 es2 e1 e2,
      alookup p1 (create_routing_table (create_road_graph data)) = some es1 ∧
      alookup p2 (create_routing_table (create_road_graph data)) = some es2 ∧
      e1 ∈ es1 ∧ e2 ∈ es2 ∧
      e1.destination = p2 ∧ e2.destination = p1 ∧
      e1.distance = e2.distance ∧ e1.oneway = e2.oneway := by
  have hWF := create_road_graph_wf data
  have hisSome := create_road_graph_edge data nids tags hway rtype hhw n1 n2 hpair p1 p2 h1 h2
  obtain ⟨a, ha⟩ := Option.isSome_iff_exists.1 hisSome
  have hsym : get_edge_data (create_road_graph data) p2 p1 = some a := by
    rw [get_edge_data_symm]
    exact ha
  have hm1 : p1 ∈ (create_road_graph data).nodes :=
    (endpoints_mem (create_road_graph data) hWF p1 p2 a ha).1
  have hm2 : p2 ∈ (create_road_graph data).nodes :=
    (endpoints_mem (create_road_graph data) hWF p1 p2 a ha).2
  have he1 : edgeEntry p2 a ∈ entriesFor (create_road_graph data) p1 :=
    edgeEntry_mem_entriesFor (create_road_graph data) p1 p2 a ha
  have he2 : edgeEntry p1 a ∈ entriesFor (create_road_graph data) p2 :=
    edgeEntry_mem_entriesFor (create_road_graph data) p2 p1 a hsym
  refine ⟨entriesFor (create_road_graph data) p1, entriesFor (create_road_graph data) p2,
    edgeEntry p2 a, edgeEntry p1 a,
    alookup_create_routing_table _ hWF.1 p1 hm1 (List.ne_nil_of_mem he1),
    alookup_create_routing_table _ hWF.1 p2 hm2 (List.ne_nil_of_mem he2),
    he1, he2, rfl, rfl, rfl, rfl⟩

/-- Witness for C4: a two-node one-way way tagged as a highway. -/
theorem way_pairs_bidirectional_witness :
    ∃ (es1 es2 : List (RouteEntry ℝ)) (e1 e2 : RouteEntry ℝ),
      alookup ((0 : ℚ), (0 : ℚ)) (create_routing_table (create_road_graph
        [OSMElement.node 1 0 0, OSMElement.node 2 1 0,
          OSMElement.way [1, 2] [("highway", "residential"), ("oneway", "yes")]])) =
        some es1 ∧
      alookup ((1 : ℚ), (0 : ℚ)) (create_routing_table (create_road_graph
        [OSMElement.node 1 0 0, OSMElement.node 2 1 0,
          OSMElement.way [1, 2] [("highway", "residential"), ("oneway", "yes")]])) =
        some es2 ∧
      e1 ∈ es1 ∧ e2 ∈ es2 ∧
      e1.destination = ((1 : ℚ), (0 : ℚ)) ∧ e2.destination = ((0 : ℚ), (0 : ℚ)) ∧
      e1.distance = e2.distance ∧ e1.oneway = e2.oneway :=
  way_pairs_bidirectional
    [OSMElement.node 1 0 0, OSMElement.node 2 1 0,
      OSMElement.way [1, 2] [("highway", "residential"), ("oneway", "yes")]]
    [1, 2] [("highway", "residential"), ("oneway", "yes")]
    (by simp) "residential" rfl 1 2 (by simp [consecPairs]) (0, 0) (1, 0) rfl rfl

/-- C9: (1) every routing table produced by `create_routing_table` from a
`create_road_graph` graph is closed under destinations — each recorded
destination is itself a table key; (2) destination closure is the
precondition under which `find_safe_route`'s per-node distance,
predecessor and danger maps, initialized over the table keys only, are
never read at a missing key: for any closed table and snapped (present)
endpoints the search never fails with a `KeyError`. -/
theorem routing_closed_and_no_key_error :
    (∀ data : List OSMElement,
        DestClosed (create_routing_table (create_road_graph data))) ∧
    (∀ (α : Type) [LinearOrderedField α], ∀ (Z : Type) (zones : List Z)
        (ilen : Z → Coord → Coord → α) (tol : α) (table : RoutingTable α) (s e : Coord),
        DestClosed table → s ∈ tkeys table → e ∈ tkeys table →
        findSafeRouteFrom table zones ilen tol s e ≠ .error .keyError) := by
  constructor
  · exact create_routing_table_closed
  · intro α inst Z zones ilen tol table s e hclosed hs he
    exact findSafeRouteFrom_no_keyError table zones ilen tol s e hclosed hs he

/-- Witness for C9: a closed two-node table with no edges; the search
(which ends with "no safe route") never raises a `KeyError`. -/
theorem routing_closed_and_no_key_error_witness :
    findSafeRouteFrom ([(((0 : ℚ), (0 : ℚ)), []), (((1 : ℚ), (0 : ℚ)), [])] : RoutingTable ℚ)
        ([] : List Unit) (fun _ _ _ => (0 : ℚ)) 0 (0, 0) (1, 0) ≠ .error .keyError :=
  routing_closed_and_no_key_error.2 ℚ Unit [] (fun _ _ _ => (0 : ℚ)) 0
    ([(((0 : ℚ), (0 : ℚ)), []), (((1 : ℚ), (0 : ℚ)), [])] : RoutingTable ℚ) (0, 0) (1, 0)
    (by
      intro c es hes ent hent
      simp only [alookup] at hes
      by_cases hc1 : ((0 : ℚ), (0 : ℚ)) = c
      · rw [if_pos hc1] at hes
        rw [← Option.some_inj.1 hes] at hent
        exact absurd hent (List.not_mem_nil ent)
      · rw [if_neg hc1] at hes
        by_cases hc2 : ((1 : ℚ), (0 : ℚ)) = c
        · rw [if_pos hc2] at hes
          rw [← Option.some_inj.1 hes] at hent
          exact absurd hent (List.not_mem_nil ent)
        · rw [if_neg hc2] at hes
          exact absurd hes (by simp))
    (by decide) (by decide)

/-! ## C2: equivalence with unconstrained Dijkstra when no zones are registered. -/

/-- With no registered zones the summed intersection length is `0`. -/
theorem totalILen_nil {α : Type} [LinearOrderedField α] {Z : Type}
    (ilen : Z → Coord → Coord → α) (a b : Coord) :
    totalILen ([] : List Z) ilen a b = 0 := by
  simp [totalILen]

/-- One relaxation step with no zones behaves exactly like the
unconstrained relaxation, preserving the state correspondence. -/
theorem relaxEdge_nil_corr {α : Type} [LinearOrderedField α] {Z : Type}
    (ilen : Z → Coord → Coord → α) (tol cd : α) (htol : 0 ≤ tol) (keys : List Coord)
    (cur : Coord) (stS : SState α) (stP : PState α) (e : RouteEntry α)
    (hrel : SPRel keys stS stP) (hcur : cur ∈ keys) :
    (∃ stS' stP', relaxEdge ([] : List Z) ilen tol cd cur stS e = .ok stS' ∧
        prelaxEdge cd cur stP e = .ok stP' ∧ SPRel keys stS' stP') ∨
    (∃ err, relaxEdge ([] : List Z) ilen tol cd cur stS e = .error err ∧
        prelaxEdge cd cur stP e = .error err) := by
  obtain ⟨hdist, hprev, hvis, hpq, hdanger, hpqk, hdom⟩ := hrel
  have hil := totalILen_nil ilen cur e.destination
  have htol' : ¬ tol < totalILen ([] : List Z) ilen cur e.destination := by
    rw [hil]
    exact not_lt.2 htol
  have hdc : stS.danger cur = some 0 := by rw [hdanger]; exact if_pos hcur
  have hdist' : stS.dist e.destination = stP.dist e.destination := by rw [hdist]
  cases hdn : stP.dist e.destination with
  | none =>
    right
    refine ⟨.keyError, ?_, ?_⟩
    · simp only [relaxEdge, hdc, hdist', hdn]
      rw [if_neg htol']
    · simp only [prelaxEdge, hdn]
  | some dn =>
    by_cases h1 : ((cd + e.distance : α) : WithTop α) < dn
    · left
      have hnb : e.destination ∈ keys := by
        apply hdom
        rw [hdist', hdn]
        simp
      refine ⟨relaxUpdate stS cur e.destination (cd + e.distance)
          (0 + totalILen ([] : List Z) ilen cur e.destination),
        { dist := fun c => if c = e.destination
              then some ((cd + e.distance : α) : WithTop α) else stP.dist c
          prev := fun c => if c = e.destination then some (some cur) else stP.prev c
          visited := stP.visited
          pq := pqInsert (cd + e.distance, e.destination) stP.pq }, ?_, ?_, ?_⟩
      · simp only [relaxEdge, hdc, hdist', hdn]
        rw [if_neg htol', if_pos h1]
      · simp only [prelaxEdge, hdn]
        rw [if_pos h1]
      · refine ⟨?_, ?_, ?_, ?_, ?_, ?_, ?_⟩
        · funext c
          simp only [relaxUpdate]
          by_cases h : c = e.destination
          · simp [h]
          · simp [h, congrFun hdist c]
        · funext c
          simp only [relaxUpdate]
          by_cases h : c = e.destination
          · simp [h]
          · simp [h, congrFun hprev c]
        · simpa [relaxUpdate] using hvis
        · simp only [relaxUpdate]
          rw [hpq]
        · funext c
          simp only [relaxUpdate]
          by_cases h : c = e.destination
          · rw [if_pos h, if_pos (h ▸ hnb), hil, add_zero]
          · rw [if_neg h, congrFun hdanger c]
        · intro x hx
          simp only [relaxUpdate] at hx
          rcases mem_pqInsert _ stS.pq x hx with h | h
          · rw [h]
            exact hnb
          · exact hpqk x h
        · intro c hc
          simp only [relaxUpdate] at hc
          by_cases h : c = e.destination
          · exact h ▸ hnb
          · rw [if_neg h] at hc
            exact hdom c hc
    · left
      have hnb : e.destination ∈ keys := by
        apply hdom
        rw [hdist', hdn]
        simp
      have hgn : stS.danger e.destination = some 0 := by rw [hdanger]; exact if_pos hnb
      refine ⟨stS, stP, ?_, ?_, hdist, hprev, hvis, hpq, hdanger, hpqk, hdom⟩
      · simp only [relaxEdge, hdc, hdist', hdn, hgn]
        rw [if_neg htol', if_neg h1]
        by_cases h2 : ((cd + e.distance : α) : WithTop α) = dn
        · rw [if_pos h2, if_neg (by rw [hil]; simp)]
        · rw [if_neg h2]
      · simp only [prelaxEdge, hdn]
        rw [if_neg h1]

/-- A whole relaxation pass with no zones corresponds to the
unconstrained pass. -/
theorem relaxAll_nil_corr {α : Type} [LinearOrderedField α] {Z : Type}
    (ilen : Z → Coord → Coord → α) (tol cd : α) (htol : 0 ≤ tol) (keys : List Coord)
    (cur : Coord) (hcur : cur ∈ keys) :
    ∀ (es : List (RouteEntry α)) (stS : SState α) (stP : PState α), SPRel keys stS stP →
      (∃ stS' stP', relaxAll ([] : List Z) ilen tol cd cur stS es = .ok stS' ∧
          prelaxAll cd cur stP es = .ok stP' ∧ SPRel keys stS' stP') ∨
      (∃ err, relaxAll ([] : List Z) ilen tol cd cur stS es = .error err ∧
          prelaxAll cd cur stP es = .error err) := by
  intro es
  induction es with
  | nil =>
    intro stS stP hrel
    exact Or.inl ⟨stS, stP, rfl, rfl, hrel⟩
  | cons e rest ih =>
    intro stS stP hrel
    rcases relaxEdge_nil_corr ilen tol cd htol keys cur stS stP e hrel hcur with
      ⟨stS1, stP1, h1, h2, hrel1⟩ | ⟨err, h1, h2⟩
    · rcases ih stS1 stP1 hrel1 with ⟨stS2, stP2, h3, h4, hrel2⟩ | ⟨err, h3, h4⟩
      · left
        refine ⟨stS2, stP2, ?_, ?_, hrel2⟩
        · simp only [relaxAll, List.foldlM_cons] at h3 ⊢
          rw [h1]
          exact h3
        · simp only [prelaxAll, List.foldlM_cons] at h4 ⊢
          rw [h2]
          exact h4
      · right
        refine ⟨err, ?_, ?_⟩
        · simp only [relaxAll, List.foldlM_cons] at h3 ⊢
          rw [h1]
          exact h3
        · simp only [prelaxAll, List.foldlM_cons] at h4 ⊢
          rw [h2]
          exact h4
    · right
      refine ⟨err, ?_, ?_⟩
      · simp only [relaxAll, List.foldlM_cons]
        rw [h1]
        rfl
      · simp only [prelaxAll, List.foldlM_cons]
        rw [h2]
        rfl

/-- The search loop with no zones runs in lockstep with the
unconstrained Dijkstra loop: same pops, same relaxations, same errors,
and, on completion, equal distance and predecessor maps. -/
theorem searchLoop_nil_corr {α : Type} [LinearOrderedField α] {Z : Type}
    (table : RoutingTable α) (ilen : Z → Coord → Coord → α) (tol : α) (endN : Coord)
    (htol : 0 ≤ tol) :
    ∀ (fuel : ℕ) (stS : SState α) (stP : PState α), SPRel (tkeys table) stS stP →
      (∃ stS' stP', searchLoop table ([] : List Z) ilen tol endN fuel stS = .ok stS' ∧
          dijkstraLoop table endN fuel stP = .ok stP' ∧
          stS'.dist = stP'.dist ∧ stS'.prev = stP'.prev) ∨
      (∃ err, searchLoop table ([] : List Z) ilen tol endN fuel stS = .error err ∧
          dijkstraLoop table endN fuel stP = .error err) := by
  intro fuel
  induction fuel with
  | zero =>
    intro stS stP _
    exact Or.inr ⟨.outOfFuel, rfl, rfl⟩
  | succ f ih =>
    intro stS stP hrel
    have hpq := hrel.2.2.2.1
    have hvis := hrel.2.2.1
    cases hpqS : stS.pq with
    | nil =>
      have hpqP : stP.pq = [] := by rw [← hpq, hpqS]
      left
      refine ⟨stS, stP, ?_, ?_, hrel.1, hrel.2.1⟩
      · simp only [searchLoop]
        rw [hpqS]
      · simp only [dijkstraLoop]
        rw [hpqP]
    | cons x rest =>
      obtain ⟨cd, cur⟩ := x
      have hpqP : stP.pq = (cd, cur) :: rest := by rw [← hpq, hpqS]
      have hcur : cur ∈ tkeys table := hrel.2.2.2.2.2.1 (cd, cur)
        (by rw [hpqS]; exact List.mem_cons_self _ _)
      have hrest : ∀ y ∈ rest, y.2 ∈ tkeys table := fun y hy =>
        hrel.2.2.2.2.2.1 y (by rw [hpqS]; exact List.mem_cons_of_mem _ hy)
      by_cases hv : cur ∈ stS.visited
      · have hvP : cur ∈ stP.visited := by rw [← hvis]; exact hv
        have hrel' : SPRel (tkeys table) { stS with pq := rest } { stP with pq := rest } :=
          ⟨hrel.1, hrel.2.1, hvis, rfl, hrel.2.2.2.2.1, hrest, hrel.2.2.2.2.2.2⟩
        have hstepS : searchLoop table ([] : List Z) ilen tol endN (f + 1) stS =
            searchLoop table ([] : List Z) ilen tol endN f { stS with pq := rest } := by
          simp only [searchLoop]
          rw [hpqS]
          dsimp only
          rw [if_pos hv]
        have hstepP : dijkstraLoop table endN (f + 1) stP =
            dijkstraLoop table endN f { stP with pq := rest } := by
          simp only [dijkstraLoop]
          rw [hpqP]
          dsimp only
          rw [if_pos hvP]
        rw [hstepS, hstepP]
        exact ih _ _ hrel'
      · have hvP : cur ∉ stP.visited := by rw [← hvis]; exact hv
        have hrel1 : SPRel (tkeys table)
            { stS with visited := cur :: stS.visited, pq := rest }
            { stP with visited := cur :: stP.visited, pq := rest } :=
          ⟨hrel.1, hrel.2.1, by rw [hvis], rfl, hrel.2.2.2.2.1, hrest, hrel.2.2.2.2.2.2⟩
        by_cases he : cur = endN
        · left
          refine ⟨{ stS with visited := cur :: stS.visited, pq := rest },
            { stP with visited := cur :: stP.visited, pq := rest }, ?_, ?_,
            hrel.1, hrel.2.1⟩
          · simp only [searchLoop]
            rw [hpqS]
            dsimp only
            rw [if_neg hv, if_pos he]
          · simp only [dijkstraLoop]
            rw [hpqP]
            dsimp only
            rw [if_neg hvP, if_pos he]
        · cases hlook : alookup cur table with
          | none =>
            right
            refine ⟨.keyError, ?_, ?_⟩
            · simp only [searchLoop]
              rw [hpqS]
              dsimp only
              rw [if_neg hv, if_neg he, hlook]
            · simp only [dijkstraLoop]
              rw [hpqP]
              dsimp only
              rw [if_neg hvP, if_neg he, hlook]
          | some es =>
            rcases relaxAll_nil_corr ilen tol cd htol (tkeys table) cur hcur es
                { stS with visited := cur :: stS.visited, pq := rest }
                { stP with visited := cur :: stP.visited, pq := rest } hrel1 with
              ⟨stS2, stP2, h1, h2, hrel2⟩ | ⟨err, h1, h2⟩
            · have hstepS : searchLoop table ([] : List Z) ilen tol endN (f + 1) stS =
                  searchLoop table ([] : List Z) ilen tol endN f stS2 := by
                simp only [searchLoop]
                rw [hpqS]
                dsimp only
                rw [if_neg hv, if_neg he, hlook]
                dsimp only
                rw [h1]
                rfl
              have hstepP : dijkstraLoop table endN (f + 1) stP =
                  dijkstraLoop table endN f stP2 := by
                simp only [dijkstraLoop]
                rw [hpqP]
                dsimp only
                rw [if_neg hvP, if_neg he, hlook]
                dsimp only
                rw [h2]
                rfl
              rw [hstepS, hstepP]
              exact ih _ _ hrel2
            · right
              refine ⟨err, ?_, ?_⟩
              · simp only [searchLoop]
                rw [hpqS]
                dsimp only
                rw [if_neg hv, if_neg he, hlook]
                dsimp only
                rw [h1]
                rfl
              · simp only [dijkstraLoop]
                rw [hpqP]
                dsimp only
                rw [if_neg hvP, if_neg he, hlook]
                dsimp only
                rw [h2]
                rfl

/-- C2: with zero registered danger zones (and a nonnegative tolerance,
so that the empty intersection sum `0` never exceeds it),
`find_safe_route` between snapped table nodes returns exactly the same
result — same path, same total cost, and the same failure otherwise — as
the unconstrained Dijkstra search `dijkstraPlain` on the same routing
table between the same snapped start and end nodes. -/
theorem findSafeRouteFrom_no_zones_eq_dijkstra {α : Type} [LinearOrderedField α] {Z : Type}
    (table : RoutingTable α) (ilen : Z → Coord → Coord → α) (tol : α) (s e : Coord)
    (htol : 0 ≤ tol) (hs : s ∈ tkeys table) :
    findSafeRouteFrom table ([] : List Z) ilen tol s e = dijkstraPlain table s e := by
  have hrel0 : SPRel (tkeys table) (initState table s) (pinitState table s) := by
    refine ⟨rfl, rfl, rfl, rfl, rfl, ?_, ?_⟩
    · intro x hx
      have hx' : x = ((0 : α), s) := by simpa [initState] using hx
      rw [hx']
      exact hs
    · intro c hc
      simp only [initState] at hc
      by_cases h : c = s
      · rw [h]; exact hs
      · rw [if_neg h] at hc
        by_cases h2 : c ∈ tkeys table
        · exact h2
        · rw [if_neg h2] at hc
          exact absurd rfl hc
  unfold findSafeRouteFrom dijkstraPlain
  rcases searchLoop_nil_corr table ilen tol e htol (searchFuel table s)
      (initState table s) (pinitState table s) hrel0 with
    ⟨stS', stP', h1, h2, hdist, hprev⟩ | ⟨err, h1, h2⟩
  · rw [h1, h2]
    dsimp only
    rw [hdist, hprev]
  · rw [h1, h2]

/-- Witness for C2: a concrete two-node one-edge table; both searches
return the two-node path of length `2`. -/
theorem findSafeRouteFrom_no_zones_eq_dijkstra_witness :
    findSafeRouteFrom
        ([(((0 : ℚ), (0 : ℚ)), [⟨(1, 0), (1, 0), 2, "r", "n", false⟩]),
          (((1 : ℚ), (0 : ℚ)), [⟨(0, 0), (0, 0), 2, "r", "n", false⟩])] : RoutingTable ℚ)
        ([] : List Unit) (fun _ _ _ => (0 : ℚ)) 5 (0, 0) (1, 0) =
      dijkstraPlain
        ([(((0 : ℚ), (0 : ℚ)), [⟨(1, 0), (1, 0), 2, "r", "n", false⟩]),
          (((1 : ℚ), (0 : ℚ)), [⟨(0, 0), (0, 0), 2, "r", "n", false⟩])] : RoutingTable ℚ)
        (0, 0) (1, 0) :=
  findSafeRouteFrom_no_zones_eq_dijkstra
    ([(((0 : ℚ), (0 : ℚ)), [⟨(1, 0), (1, 0), 2, "r", "n", false⟩]),
      (((1 : ℚ), (0 : ℚ)), [⟨(0, 0), (0, 0), 2, "r", "n", false⟩])] : RoutingTable ℚ)
    (fun _ _ _ => (0 : ℚ)) 5 (0, 0) (1, 0) (by norm_num) (by decide)
